import Mathlib

/-!
Verification of the address-region-checker repository (src/python-version/app.py and
src/python-version/check_address_in_region.py) against its natural-language
specification.

Modelling conventions for the shallow embedding:
* Python strings are modelled as lists of characters (`Seg`).
* A dataset file path is modelled by its `pathlib.Path(...).parts` value, i.e. a
  list of path segments (`List Seg`).
* Scalar cell values of a pandas/GeoDataFrame row are modelled by the inductive
  type `Value` (string, integer, boolean, or null/None/NaN).
* A shapely geometry is modelled extensionally by its containment predicate
  `Point → Bool` (the only operation the program applies to a geometry is
  `point.within(geometry)`); points are rational coordinate pairs.
* Python `dict` objects (insertion-ordered, with in-place value overwrite on an
  existing key) are modelled as association lists with the `dictInsert`
  operation, which updates an existing key in place and appends a new key.
* Fallible Python code (a raised `ValueError` from `tuple.index`, a `KeyError`
  from a missing column) is modelled with `Except Err`.
-/

/-- Characters of a Python string. -/

abbrev Seg := List Char

/-- Scalar cell value of a table: string, number, boolean, or null (None/NaN). -/

inductive Value where
  | str (s : Seg)
  | num (n : Int)
  | bool (b : Bool)
  | null
  deriving DecidableEq, Repr

/-- Geographic point, a coordinate pair (longitude, latitude); coordinates are
modelled over the integers (an exact, decidable number type; none of the
verified properties depends on fractional coordinates). -/

abbrev Point := ℤ × ℤ

/-- Shapely geometry, modelled extensionally by its point-containment test
(the program only ever evaluates `point.within(geometry)`). -/

abbrev Geom := Point → Bool

/-- The root marker segment `'shape_files'` of app.py line 50. -/

def marker : Seg := "shape_files".toList

/-- The string `'geometry'` excluded from attribute columns (app.py lines 57, 72). -/

def gstr : Seg := "geometry".toList

/-- The flag column name `'in_region'` (app.py line 78). -/

def irCol : Seg := "in_region".toList

/-- The input column name `'address'` (app.py line 104). -/

def addrCol : Seg := "address".toList

/-- The CRS tag `"EPSG:4326"` of the point GeoDataFrame (app.py line 41). -/

def wgs84 : Seg := "EPSG:4326".toList

/-- Python `tuple.index` restricted to its success value: index of the first
occurrence of `x`, or `none` where Python raises `ValueError` (app.py line 50). -/

def idxOf? (x : Seg) : List Seg → Option Nat
  | [] => none
  | y :: ys => if y = x then some 0 else (idxOf? x ys).map (· + 1)

/-- Python `'_'.join(parts)` (app.py line 51). -/

def joinUnd : List Seg → Seg
  | [] => []
  | [a] => a
  | a :: b :: rest => a ++ '_' :: joinUnd (b :: rest)

/-- Python `s.replace('.shp', '')` (app.py line 51): delete every leftmost,
non-overlapping occurrence of the four characters `.shp`. -/

def replaceShp : List Char → List Char
  | '.' :: 's' :: 'h' :: 'p' :: rest => replaceShp rest
  | c :: rest => c :: replaceShp rest
  | [] => []

/-- The namespace-prefix derivation of app.py lines 49-51 (also lines 68-70):
`parts.index('shape_files')`, join the following segments with underscores and
strip `.shp`; `none` models the `ValueError` raised when the marker segment is
absent from the path. -/

def derivePfx (parts : List Seg) : Option Seg :=
  match idxOf? marker parts with
  | none => none
  | some i => some (replaceShp (joinUnd (parts.drop (i + 1))))

/-- The namespaced attribute key `f"{prefix}_{key}"` (app.py lines 58, 74). -/

def nsKey (pfx k : Seg) : Seg := pfx ++ '_' :: k

/-- Region of a loaded GeoDataFrame: one row, with its geometry and its scalar
values, stored positionally against the frame's column list. -/

structure Region where
  geom : Geom
  vals : List Value

/-- RegionDataset: one entry of `regions_list` (app.py line 218): the shapefile
path (as `pathlib.Path(...).parts`), the frame's CRS tag, its column names, and
its region rows. -/

structure Dataset where
  path : List Seg
  crs : Seg
  cols : List Seg
  regions : List Region

/-- Error raised by the Python code: `ValueError` from `tuple.index`
(app.py lines 50, 69) or `KeyError` from a missing column (app.py line 104). -/

inductive Err where
  | valueError
  | keyError
  deriving DecidableEq, Repr

/-- Python dict assignment `d[k] = v` on an insertion-ordered dict modelled as
an association list: update an existing key in place, else append. -/

def dictInsert : List (Seg × Value) → Seg → Value → List (Seg × Value)
  | [], k, v => [(k, v)]
  | (k0, v0) :: rest, k, v =>
    if k0 = k then (k0, v) :: rest else (k0, v0) :: dictInsert rest k v

/-- Python dict lookup `d[k]` (as an option). -/

def dictGet? : List (Seg × Value) → Seg → Option Value
  | [], _ => none
  | (k0, v0) :: rest, k => if k0 = k then some v0 else dictGet? rest k

/-- The reprojection branch of app.py lines 45-46: if the dataset's CRS differs
from the point's CRS (`EPSG:4326`), reproject each geometry; `reproject` is the
external `to_crs` collaborator, passed in as an oracle. -/

def effRegions (reproject : Geom → Geom) (ds : Dataset) : List Region :=
  if ds.crs ≠ wgs84 then ds.regions.map (fun r => ⟨reproject r.geom, r.vals⟩)
  else ds.regions

/-- The inner attribute-merging loop of app.py lines 55-58: for every
`(key, value)` item of `region.to_dict()` with `key != 'geometry'`, assign
`combined_data[f"{prefix}_{key}"] = value`. -/

def mergeRegion (pfx : Seg) (items : List (Seg × Value)) (acc : List (Seg × Value)) :
    List (Seg × Value) :=
  items.foldl (fun a kv => if kv.1 = gstr then a else dictInsert a (nsKey pfx kv.1) kv.2) acc

/-- The per-dataset containment loop of app.py lines 53-58: test every region
in sequence and merge the attributes of each containing region. A region row's
`to_dict()` items are the frame's columns zipped with the row's values. -/

def foldRegions (p : Point) (pfx : Seg) (cols : List Seg) (rs : List Region)
    (acc : List (Seg × Value)) : List (Seg × Value) :=
  rs.foldl (fun a r => if r.geom p then mergeRegion pfx (cols.zip r.vals) a else a) acc

/-- The body of the dataset loop of app.py lines 44-58 for one dataset:
reconcile its CRS, derive its namespace prefix (raising `ValueError` when the
marker segment is absent), and merge every containing region's attributes into
the accumulated dict. -/

def matchStep (reproject : Geom → Geom) (p : Point) (acc : List (Seg × Value))
    (ds : Dataset) : Except Err (List (Seg × Value)) :=
  match derivePfx ds.path with
  | none => .error .valueError
  | some pfx => .ok (foldRegions p pfx ds.cols (effRegions reproject ds) acc)

/-- The dataset loop of app.py lines 42-58: starting from the empty dict, run
`matchStep` over each dataset in the given order. -/

def matchAll (reproject : Geom → Geom) (p : Point) (regionsList : List Dataset) :
    Except Err (List (Seg × Value)) :=
  regionsList.foldlM (matchStep reproject p) []

/-- Function `check_address_in_region` of app.py lines 26-60. The external
geocoder `get_coordinates` (lines 14-24) catches every exception and returns
`None` on failure, so it is modelled as a total oracle `resolver` returning an
optional point. Returns `.ok none` both when the address does not resolve and
when `combined_data` ends up empty (line 60 returns `None`, not `{}`). -/

def checkAddressInRegion (resolver : Value → Option Point) (reproject : Geom → Geom)
    (address : Value) (regionsList : List Dataset) :
    Except Err (Option (List (Seg × Value))) :=
  match resolver address with
  | none => .ok none
  | some point =>
    (matchAll reproject point regionsList).map (fun l => if l.isEmpty then none else some l)

/-- A row of a pandas DataFrame: the row's cells as an association list keyed
by column name, in column order. -/

abbrev Row := List (Seg × Value)

/-- A pandas DataFrame: the frame's column names in order, and its rows in
order (the input CSV is read with a default RangeIndex, so rows are addressed
positionally). -/

structure Table where
  cols : List Seg
  rows : List Row
  deriving DecidableEq, Repr

/-- Keys of a row. -/

def rowKeys (r : Row) : List Seg := r.map Prod.fst

/-- Pandas whole-column assignment `df[c] = v`: overwrite an existing column in
place, else append a new column at the end with `v` in every row. -/

def setCol (t : Table) (c : Seg) (v : Value) : Table :=
  if c ∈ t.cols then ⟨t.cols, t.rows.map (fun r => dictInsert r c v)⟩
  else ⟨t.cols ++ [c], t.rows.map (fun r => r ++ [(c, v)])⟩

/-- Pandas cell assignment `df.at[i, c] = v` at row position `i`: set the cell
of an existing column, enlarging the frame with a new column (null elsewhere)
when `c` is absent; out-of-range row positions never occur in the modelled
loops and leave the table unchanged. -/

def setCell (t : Table) (i : Nat) (c : Seg) (v : Value) : Table :=
  if c ∈ t.cols then
    match t.rows.get? i with
    | some r => ⟨t.cols, t.rows.set i (dictInsert r c v)⟩
    | none => t
  else
    let t2 : Table := ⟨t.cols ++ [c], t.rows.map (fun r => r ++ [(c, Value.null)])⟩
    match t2.rows.get? i with
    | some r => ⟨t2.cols, t2.rows.set i (dictInsert r c v)⟩
    | none => t2

/-- Cell read `df.at[i, c]` / `row[c]` at row position `i`. -/

def getCell (t : Table) (i : Nat) (c : Seg) : Option Value :=
  (t.rows.get? i).bind (fun r => dictGet? r c)

/-- The column-setup loop of app.py lines 64-76: for each dataset derive its
prefix (raising `ValueError` when the marker is absent) and create one empty
(`None`-valued) column per non-geometry attribute column, also accumulating
the created names in `all_columns`. -/

def setupStep (acc : Table × List Seg) (ds : Dataset) : Except Err (Table × List Seg) :=
  match derivePfx ds.path with
  | none => .error .valueError
  | some pfx =>
    .ok ((ds.cols.filter (fun c => decide (c ≠ gstr))).foldl
      (fun acc2 c => (setCol acc2.1 (nsKey pfx c) Value.null, acc2.2 ++ [nsKey pfx c]))
      acc)

/-- The full column-setup loop, folding `setupStep` over the datasets. -/

def setupColumns (df : Table) (regionsList : List Dataset) :
    Except Err (Table × List Seg) :=
  regionsList.foldlM setupStep (df, [])

/-- The per-record body of the loop of app.py lines 89-111 at row position `i`:
read `row[1]['address']` (a missing column raises `KeyError`), run
`check_address_in_region`, and if the result is truthy set `in_region` to
`True` and write every item of the result dict into the row's cells. The
progress/timing updates (lines 90-102, external display state) and the
rate-limiting `time.sleep(1)` (line 111) do not affect the table. -/

def processRow (resolver : Value → Option Point) (reproject : Geom → Geom)
    (regionsList : List Dataset) (t : Table) (i : Nat) : Except Err Table :=
  match getCell t i addrCol with
  | none => .error .keyError
  | some addr =>
    match checkAddressInRegion resolver reproject addr regionsList with
    | .error e => .error e
    | .ok rd =>
      match rd with
      | none => .ok t
      | some l =>
        if l.isEmpty then .ok t
        else .ok (l.foldl (fun t2 kv => setCell t2 i kv.1 kv.2)
          (setCell t i irCol (Value.bool true)))

/-- Function `process_addresses` of app.py lines 62-119: create the namespaced
region columns, set `in_region` to `False` everywhere, then process each row of
the table in input order. -/

def processAddresses (resolver : Value → Option Point) (reproject : Geom → Geom)
    (df : Table) (regionsList : List Dataset) : Except Err Table := do
  let setup ← setupColumns df regionsList
  let t := setCol setup.1 irCol (Value.bool false)
  (List.range t.rows.length).foldlM (processRow resolver reproject regionsList) t

/-- Modelled from the spec: the point-in-polygon containment primitive
`pointWithin` of spec section 4.1 is implemented by the external shapely
library (`point.within(region.geometry)`, app.py line 54), whose source is not
part of this repository; following the spec's words it is modelled as a
standard ray-casting test over a polygon given by its vertex list, with a point
lying exactly on a boundary segment counted as contained. `onSeg p a b` decides
whether `p` lies on the closed segment from `a` to `b`. -/

def onSeg (p a b : Point) : Bool :=
  decide ((b.1 - a.1) * (p.2 - a.2) = (b.2 - a.2) * (p.1 - a.1)
    ∧ min a.1 b.1 ≤ p.1 ∧ p.1 ≤ max a.1 b.1
    ∧ min a.2 b.2 ≤ p.2 ∧ p.2 ≤ max a.2 b.2)

/-- Modelled from the spec: one step of the ray-casting rule, deciding whether
the horizontal ray from `p` to the right crosses the edge from `a` to `b`
(written in the division-free cross-product form). -/

def rayCross (p a b : Point) : Bool :=
  if a.2 ≤ p.2 ∧ p.2 < b.2 then
    decide ((p.1 - a.1) * (b.2 - a.2) < (b.1 - a.1) * (p.2 - a.2))
  else if b.2 ≤ p.2 ∧ p.2 < a.2 then
    decide ((b.1 - a.1) * (p.2 - a.2) < (p.1 - a.1) * (b.2 - a.2))
  else false

/-- Edges of a polygon from its vertex list, closing back to the first vertex. -/

def edges : List Point → List (Point × Point)
  | [] => []
  | v :: vs => List.zip (v :: vs) (vs ++ [v])

/-- Modelled from the spec: the edge scan of the containment test; a point on
any boundary edge is contained immediately, otherwise the ray-crossing parity
is accumulated. -/

def pwScan (p : Point) : List (Point × Point) → Bool → Bool
  | [], inside => inside
  | e :: es, inside =>
    if onSeg p e.1 e.2 then true
    else pwScan p es (xor (rayCross p e.1 e.2) inside)

/-- Modelled from the spec: `pointWithin(point, polygon)` of spec section 4.1. -/

def pointWithin (p : Point) (poly : List Point) : Bool :=
  pwScan p (edges poly) false

/-- The namespaced column names one dataset contributes, in attribute order
(defined for datasets whose path contains the marker). -/

def dsCols (ds : Dataset) : List Seg :=
  (ds.cols.filter (fun c => decide (c ≠ gstr))).map
    (fun c => nsKey ((derivePfx ds.path).getD []) c)

/-- All namespaced region column names, in dataset-then-attribute order. -/

def nsCols (regionsList : List Dataset) : List Seg := (regionsList.map dsCols).flatten

def c5reg1 : Region := ⟨fun _ => true, [Value.str "R1".toList]⟩

def c5reg2 : Region := ⟨fun _ => true, [Value.str "R2".toList]⟩

def c5ds : Dataset := ⟨[marker, "zones.shp".toList], wgs84, ["name".toList], [c5reg1, c5reg2]⟩

def c6dsA : Dataset :=
  ⟨[marker, "a.shp".toList], wgs84, ["b_c".toList], [⟨fun _ => true, [Value.str "X".toList]⟩]⟩

def c6dsB : Dataset :=
  ⟨[marker, "a_b.shp".toList], wgs84, ["c".toList], [⟨fun _ => true, [Value.str "Y".toList]⟩]⟩

def c6wr1 : Region := ⟨fun _ => true, [Value.str "X".toList]⟩

def c6wr2 : Region := ⟨fun _ => true, [Value.str "Y".toList]⟩

def c6wds1 : Dataset := ⟨[marker, "a.shp".toList], wgs84, ["b".toList], [c6wr1]⟩

def c6wds2 : Dataset := ⟨[marker, "d.shp".toList], wgs84, ["c".toList], [c6wr2]⟩

/-- The check-result dict, as a total function: the value `check_address_in_region`
returns when it does not raise (used to state driver-level characterizations). -/

def rdOf (resolver : Value → Option Point) (reproject : Geom → Geom)
    (regionsList : List Dataset) (a : Value) : Option (List (Seg × Value)) :=
  match checkAddressInRegion resolver reproject a regionsList with
  | .ok rd => rd
  | .error _ => none

/-- A row of the table after column setup and `in_region` initialization: the
original row, then all namespaced region columns as nulls, then the flag. -/

def padRow (regionsList : List Dataset) (r : Row) : Row :=
  r ++ (nsCols regionsList).map (fun c => (c, Value.null)) ++ [(irCol, Value.bool false)]

/-- The effect of one loop body on its own (padded) row: when the check result
is truthy, set the flag to `True` and write each result item into the row. -/

def enrichRow (rd : Option (List (Seg × Value))) (r : Row) : Row :=
  match rd with
  | none => r
  | some l =>
    if l.isEmpty then r
    else l.foldl (fun r2 kv => dictInsert r2 kv.1 kv.2) (dictInsert r irCol (Value.bool true))

/-- The final content of one output row as a function of the original input
row: pad with null region columns and the false flag, then enrich with the
(re-run) check result for the row's address cell. -/

def finalRow (resolver : Value → Option Point) (reproject : Geom → Geom)
    (regionsList : List Dataset) (r : Row) : Row :=
  match dictGet? r addrCol with
  | none => padRow regionsList r
  | some a => enrichRow (rdOf resolver reproject regionsList a) (padRow regionsList r)

def c7ds : Dataset :=
  ⟨[marker, "in.shp".toList], wgs84, ["region".toList], [⟨fun _ => true, [Value.str "oops".toList]⟩]⟩

def c7df : Table := ⟨[addrCol], [[(addrCol, Value.str "A".toList)]]⟩

def c7out : Table :=
  ⟨[addrCol, irCol],
   [[(addrCol, Value.str "A".toList), (irCol, Value.str "oops".toList)]]⟩

def c7wds : Dataset :=
  ⟨[marker, "z.shp".toList], wgs84, ["n".toList], [⟨fun _ => true, [Value.num 1]⟩]⟩

def c7wdf : Table :=
  ⟨[addrCol], [[(addrCol, Value.str "A".toList)], [(addrCol, Value.str "B".toList)]]⟩

def c8df : Table :=
  ⟨[addrCol], [[(addrCol, Value.str "C".toList)], [(addrCol, Value.str "D".toList)]]⟩

def c8ds : Dataset :=
  ⟨[marker, "z.shp".toList], wgs84, ["n".toList], [⟨fun _ => true, [Value.num 1]⟩]⟩

def c2df : Table := ⟨[addrCol], [[(addrCol, Value.str "A".toList)]]⟩

def c2out : Table :=
  ⟨[addrCol, irCol], [[(addrCol, Value.str "A".toList), (irCol, Value.bool false)]]⟩

def c10ds : Dataset := ⟨["data".toList, "x.shp".toList], wgs84, ["n".toList], []⟩

def c10df : Table := ⟨[addrCol], [[(addrCol, Value.str "A".toList)]]⟩

def c9df : Table :=
  ⟨[addrCol, "a_b".toList],
   [[(addrCol, Value.str "A".toList), ("a_b".toList, Value.str "X".toList)]]⟩

def c9ds : Dataset :=
  ⟨[marker, "a.shp".toList], wgs84, ["b".toList], [⟨fun _ => false, [Value.str "Z".toList]⟩]⟩

def c9out : Table :=
  ⟨[addrCol, "a_b".toList, irCol],
   [[(addrCol, Value.str "A".toList), ("a_b".toList, Value.null), (irCol, Value.bool false)]]⟩

def c9wdf : Table :=
  ⟨[addrCol], [[(addrCol, Value.str "A".toList)], [(addrCol, Value.str "B".toList)]]⟩

def c9wds : Dataset :=
  ⟨[marker, "z.shp".toList], wgs84, ["n".toList], [⟨fun q => decide (q.1 = 0), [Value.num 7]⟩]⟩

theorem derivePfx_eval_flat : derivePfx [marker, "counties.shp".toList] = some "counties".toList := by decide

theorem derivePfx_eval_no_marker : derivePfx ["data".toList, "x.shp".toList] = none := by decide

theorem derivePfx_eval_nested : derivePfx [marker, "a".toList, "b.shp".toList] = some "a_b".toList := by decide

theorem derivePfx_eval_und : derivePfx [marker, "a_b.shp".toList] = some "a_b".toList := by decide

theorem replaceShp_cons_ne (c : Char) (r : List Char) (h : c ≠ '.') :
    replaceShp (c :: r) = c :: replaceShp r := by
  rw [replaceShp.eq_def]
  split
  · rename_i rest heq
    exact absurd (List.cons.injEq .. ▸ heq).1 h
  · rename_i c2 r2 heq
    obtain ⟨rfl, rfl⟩ := List.cons.injEq .. ▸ heq
    rfl
  · rename_i heq
    exact absurd heq (by simp)

/-- Stripping `.shp` from a dot-free string followed by the extension yields
the string itself. -/
theorem replaceShp_append_ext (front : List Char) (h : '.' ∉ front) :
    replaceShp (front ++ ('.' :: 's' :: 'h' :: 'p' :: [])) = front := by
  induction front with
  | nil => rfl
  | cons c f ih =>
    have hc : c ≠ '.' := fun hc => h (hc ▸ List.mem_cons_self c f)
    rw [List.cons_append, replaceShp_cons_ne c _ hc,
      ih (fun hm => h (List.mem_cons_of_mem c hm))]

theorem joinUnd_cons_cons (a b : Seg) (rest : List Seg) :
    joinUnd (a :: b :: rest) = a ++ '_' :: joinUnd (b :: rest) := rfl

/-- Every character of a joined list is an underscore or comes from a segment. -/
theorem mem_joinUnd (c : Char) : ∀ l : List Seg, c ∈ joinUnd l →
    c = '_' ∨ ∃ s ∈ l, c ∈ s := by
  intro l
  induction l with
  | nil => intro h; cases h
  | cons a rest ih =>
    cases rest with
    | nil =>
      intro h
      exact Or.inr ⟨a, List.mem_cons_self a [], h⟩
    | cons b r2 =>
      rw [joinUnd_cons_cons]
      intro h
      rcases List.mem_append.mp h with ha | hb
      · exact Or.inr ⟨a, List.mem_cons_self a _, ha⟩
      · rcases List.mem_cons.mp hb with rfl | hb2
        · exact Or.inl rfl
        · rcases ih hb2 with h1 | ⟨s, hs, hcs⟩
          · exact Or.inl h1
          · exact Or.inr ⟨s, List.mem_cons_of_mem a hs, hcs⟩

/-- Cancellation for underscore-separated concatenation of underscore-free
segments. -/
theorem und_append_cancel : ∀ (a b x y : List Char), '_' ∉ a → '_' ∉ b →
    a ++ '_' :: x = b ++ '_' :: y → a = b ∧ x = y := by
  intro a
  induction a with
  | nil =>
    intro b x y _ hb h
    cases b with
    | nil => exact ⟨rfl, by simpa using h⟩
    | cons c b2 =>
      exfalso
      have : '_' = c := (List.cons.injEq .. ▸ h).1
      exact hb (this ▸ List.mem_cons_self c b2)
  | cons c a2 ih =>
    intro b x y ha hb h
    cases b with
    | nil =>
      exfalso
      have : c = '_' := (List.cons.injEq .. ▸ h).1
      exact ha (this ▸ List.mem_cons_self c a2)
    | cons d b2 =>
      obtain ⟨rfl, h2⟩ := List.cons.injEq .. ▸ h
      obtain ⟨rfl, rfl⟩ := ih b2 x y (fun hm => ha (List.mem_cons_of_mem _ hm))
        (fun hm => hb (List.mem_cons_of_mem _ hm)) h2
      exact ⟨rfl, rfl⟩

/-- Joining with underscores is injective on nonempty lists of underscore-free
segments. -/
theorem joinUnd_injective : ∀ (l1 l2 : List Seg), l1 ≠ [] → l2 ≠ [] →
    (∀ s ∈ l1, '_' ∉ s) → (∀ s ∈ l2, '_' ∉ s) → joinUnd l1 = joinUnd l2 → l1 = l2 := by
  intro l1
  induction l1 with
  | nil =>
    intro l2 h1ne _ _ _ _
    exact absurd rfl h1ne
  | cons a as ih =>
    intro l2 _ h2ne h1 h2 h
    cases l2 with
    | nil => exact absurd rfl h2ne
    | cons b bs =>
      have hau : '_' ∉ a := h1 a (List.mem_cons_self a as)
      have hbu : '_' ∉ b := h2 b (List.mem_cons_self b bs)
      cases as with
      | nil =>
        cases bs with
        | nil => simpa [joinUnd] using h
        | cons b2 bs2 =>
          exfalso
          rw [joinUnd_cons_cons] at h
          have : '_' ∈ a := by
            rw [show joinUnd [a] = a from rfl] at h
            rw [h]
            exact List.mem_append.mpr (Or.inr (List.mem_cons_self _ _))
          exact hau this
      | cons a2 as2 =>
        cases bs with
        | nil =>
          exfalso
          rw [joinUnd_cons_cons] at h
          have : '_' ∈ b := by
            rw [show joinUnd [b] = b from rfl] at h
            rw [← h]
            exact List.mem_append.mpr (Or.inr (List.mem_cons_self _ _))
          exact hbu this
        | cons b2 bs2 =>
          rw [joinUnd_cons_cons, joinUnd_cons_cons] at h
          obtain ⟨rfl, h2e⟩ := und_append_cancel a b _ _ hau hbu h
          have := ih (b2 :: bs2) (List.cons_ne_nil a2 as2) (List.cons_ne_nil b2 bs2)
            (fun s hs => h1 s (List.mem_cons_of_mem a hs))
            (fun s hs => h2 s (List.mem_cons_of_mem a hs)) h2e
          rw [this]

/-- Python `tuple.index` finds the first marker occurrence: on a path of the
form `root ++ marker :: rest` with no marker in `root`, the index is the length
of `root`. -/
theorem idxOf?_append_marker (root rest : List Seg) (h : marker ∉ root) :
    idxOf? marker (root ++ marker :: rest) = some root.length := by
  induction root with
  | nil => simp [idxOf?]
  | cons a r ih =>
    have ha : a ≠ marker := fun hm => h (hm ▸ List.mem_cons_self a r)
    rw [List.cons_append]
    show (if a = marker then some 0 else (idxOf? marker (r ++ marker :: rest)).map (· + 1))
      = some (a :: r).length
    rw [if_neg ha, ih (fun hm => h (List.mem_cons_of_mem a hm))]
    rfl

/-- Characterization of the prefix derivation on a path whose first marker
segment is followed by `rest`. -/
theorem derivePfx_append (root rest : List Seg) (h : marker ∉ root) :
    derivePfx (root ++ marker :: rest) = some (replaceShp (joinUnd rest)) := by
  unfold derivePfx
  rw [idxOf?_append_marker root rest h]
  have hd : (root ++ marker :: rest).drop (root.length + 1) = rest := by
    rw [List.drop_append_eq_append_drop]
    simp
  show some (replaceShp (joinUnd ((root ++ marker :: rest).drop (root.length + 1))))
    = some (replaceShp (joinUnd rest))
  rw [hd]

/-- Extending the last segment extends the join. -/
theorem joinUnd_append_last (xs : List Seg) (y z : Seg) :
    joinUnd (xs ++ [y ++ z]) = joinUnd (xs ++ [y]) ++ z := by
  induction xs with
  | nil => rfl
  | cons a xs2 ih =>
    cases xs2 with
    | nil => simp [joinUnd]
    | cons b xs3 =>
      have e1 : (a :: b :: xs3) ++ [y ++ z] = a :: b :: (xs3 ++ [y ++ z]) := by simp
      have e2 : (a :: b :: xs3) ++ [y] = a :: b :: (xs3 ++ [y]) := by simp
      rw [e1, e2, joinUnd_cons_cons, joinUnd_cons_cons]
      have e3 : b :: (xs3 ++ [y ++ z]) = (b :: xs3) ++ [y ++ z] := by simp
      have e4 : b :: (xs3 ++ [y]) = (b :: xs3) ++ [y] := by simp
      rw [e3, e4, ih]
      simp

/-- The prefix of a dataset path under the root: segments after the marker
joined with underscores and the final `.shp` extension stripped. When no
segment contains a dot except the extension, stripping removes exactly the
extension. -/
theorem derivePfx_eval (root mids : List Seg) (base : Seg) (h : marker ∉ root)
    (hdot : ∀ s ∈ mids ++ [base], '.' ∉ s) :
    derivePfx (root ++ marker :: (mids ++ [base ++ ('.' :: 's' :: 'h' :: 'p' :: [])]))
      = some (joinUnd (mids ++ [base])) := by
  rw [derivePfx_append root _ h, joinUnd_append_last]
  have hfront : '.' ∉ joinUnd (mids ++ [base]) := by
    intro hm
    rcases mem_joinUnd '.' _ hm with h1 | ⟨s, hs, hcs⟩
    · exact absurd h1 (by decide)
    · exact hdot s hs hcs
  rw [replaceShp_append_ext _ hfront]

/-- Claim C1, counterexample: the prefix derivation is NOT injective on
distinct dataset paths under the root marker. The two distinct paths
`shape_files/a_b.shp` and `shape_files/a/b.shp` derive the same prefix `a_b`,
because joining segments with underscores cannot distinguish an underscore
inside a segment from a segment boundary. -/
theorem c1_pfx_collision :
    ([marker, "a_b.shp".toList] : List Seg) ≠ [marker, "a".toList, "b.shp".toList]
    ∧ derivePfx [marker, "a_b.shp".toList] = derivePfx [marker, "a".toList, "b.shp".toList] := by
  decide

/-- Claim C1, amended: the prefix derivation is injective on distinct dataset
paths under the same root, provided every path segment after the marker is
free of underscores and free of dots apart from the final `.shp` extension
(the counterexample shows injectivity fails when a segment contains an
underscore, and `a.shp.shp` versus `a.shp` fails when a segment contains a
dot, since `replace('.shp','')` deletes every occurrence). -/
theorem c1_pfx_injective_amended (root : List Seg) (hroot : marker ∉ root)
    (m1 m2 : List Seg) (b1 b2 : Seg)
    (h1 : ∀ s ∈ m1 ++ [b1], '_' ∉ s ∧ '.' ∉ s)
    (h2 : ∀ s ∈ m2 ++ [b2], '_' ∉ s ∧ '.' ∉ s)
    (hne : root ++ marker :: (m1 ++ [b1 ++ ('.' :: 's' :: 'h' :: 'p' :: [])])
         ≠ root ++ marker :: (m2 ++ [b2 ++ ('.' :: 's' :: 'h' :: 'p' :: [])])) :
    derivePfx (root ++ marker :: (m1 ++ [b1 ++ ('.' :: 's' :: 'h' :: 'p' :: [])]))
      ≠ derivePfx (root ++ marker :: (m2 ++ [b2 ++ ('.' :: 's' :: 'h' :: 'p' :: [])])) := by
  intro heq
  rw [derivePfx_eval root m1 b1 hroot (fun s hs => (h1 s hs).2),
    derivePfx_eval root m2 b2 hroot (fun s hs => (h2 s hs).2)] at heq
  have hjoin : joinUnd (m1 ++ [b1]) = joinUnd (m2 ++ [b2]) := Option.some.inj heq
  have hlists : m1 ++ [b1] = m2 ++ [b2] :=
    joinUnd_injective (m1 ++ [b1]) (m2 ++ [b2])
      (by simp) (by simp)
      (fun s hs => (h1 s hs).1) (fun s hs => (h2 s hs).1) hjoin
  have hrev : b1 :: m1.reverse = b2 :: m2.reverse := by
    have := congrArg List.reverse hlists
    simpa using this
  have hb : b1 = b2 := (List.cons.injEq .. ▸ hrev).1
  have hm : m1 = m2 := List.reverse_injective (List.cons.injEq .. ▸ hrev).2
  exact hne (by rw [hb, hm])

/-- Witness for the amended C1 theorem at the concrete distinct paths
`shape_files/a.shp` and `shape_files/b.shp`. -/
theorem c1_pfx_injective_amended_witness :
    derivePfx ([] ++ marker :: ([] ++ ["a".toList ++ ('.' :: 's' :: 'h' :: 'p' :: [])]))
      ≠ derivePfx ([] ++ marker :: ([] ++ ["b".toList ++ ('.' :: 's' :: 'h' :: 'p' :: [])])) :=
  c1_pfx_injective_amended [] (by decide) [] [] "a".toList "b".toList
    (by decide) (by decide) (by decide)

theorem dictGet?_dictInsert_self (l : List (Seg × Value)) (k : Seg) (v : Value) :
    dictGet? (dictInsert l k v) k = some v := by
  induction l with
  | nil => simp [dictInsert, dictGet?]
  | cons kv rest ih =>
    obtain ⟨k0, v0⟩ := kv
    by_cases h : k0 = k
    · simp [dictInsert, dictGet?, h]
    · simp [dictInsert, dictGet?, h, ih]

theorem dictGet?_dictInsert_ne (l : List (Seg × Value)) (k k2 : Seg) (v : Value)
    (h : k2 ≠ k) : dictGet? (dictInsert l k v) k2 = dictGet? l k2 := by
  induction l with
  | nil =>
    have hne : k ≠ k2 := fun he => h he.symm
    simp [dictInsert, dictGet?, hne]
  | cons kv rest ih =>
    obtain ⟨k0, v0⟩ := kv
    by_cases h0 : k0 = k
    · rw [dictInsert, if_pos h0]
      have hne : k0 ≠ k2 := fun he => h (he.symm.trans h0)
      show (if k0 = k2 then some v else dictGet? rest k2)
        = (if k0 = k2 then some v0 else dictGet? rest k2)
      rw [if_neg hne, if_neg hne]
    · rw [dictInsert, if_neg h0]
      show (if k0 = k2 then some v0 else dictGet? (dictInsert rest k v) k2)
        = (if k0 = k2 then some v0 else dictGet? rest k2)
      by_cases h2 : k0 = k2
      · rw [if_pos h2, if_pos h2]
      · rw [if_neg h2, if_neg h2, ih]

theorem dictGet?_append_left (xs ys : List (Seg × Value)) (k : Seg) (v : Value)
    (h : dictGet? xs k = some v) : dictGet? (xs ++ ys) k = some v := by
  induction xs with
  | nil => cases h
  | cons kv rest ih =>
    obtain ⟨k0, v0⟩ := kv
    by_cases h0 : k0 = k
    · simpa [dictGet?, h0] using h
    · rw [dictGet?] at h
      rw [if_neg h0] at h
      simpa [dictGet?, h0] using ih h

theorem dictGet?_append_right (xs ys : List (Seg × Value)) (k : Seg)
    (h : k ∉ rowKeys xs) : dictGet? (xs ++ ys) k = dictGet? ys k := by
  induction xs with
  | nil => rfl
  | cons kv rest ih =>
    obtain ⟨k0, v0⟩ := kv
    have h0 : k0 ≠ k := fun he => h (he ▸ List.mem_cons_self _ _)
    rw [List.cons_append]
    show (if k0 = k then some v0 else dictGet? (rest ++ ys) k) = dictGet? ys k
    rw [if_neg h0, ih (fun hm => h (List.mem_cons_of_mem _ hm))]

theorem dictGet?_eq_none_of_not_mem (xs : List (Seg × Value)) (k : Seg)
    (h : k ∉ rowKeys xs) : dictGet? xs k = none := by
  induction xs with
  | nil => rfl
  | cons kv rest ih =>
    obtain ⟨k0, v0⟩ := kv
    have h0 : k0 ≠ k := fun he => h (he ▸ List.mem_cons_self _ _)
    show (if k0 = k then some v0 else dictGet? rest k) = none
    rw [if_neg h0, ih (fun hm => h (List.mem_cons_of_mem _ hm))]

theorem mem_rowKeys_of_dictGet?_some (xs : List (Seg × Value)) (k : Seg) (v : Value)
    (h : dictGet? xs k = some v) : k ∈ rowKeys xs := by
  by_contra hk
  rw [dictGet?_eq_none_of_not_mem xs k hk] at h
  cases h

theorem dictInsert_ne_nil (l : List (Seg × Value)) (k : Seg) (v : Value) :
    dictInsert l k v ≠ [] := by
  cases l with
  | nil => simp [dictInsert]
  | cons kv rest =>
    obtain ⟨k0, v0⟩ := kv
    by_cases h : k0 = k <;> simp [dictInsert, h]

theorem rowKeys_dictInsert_mem (l : List (Seg × Value)) (k k2 : Seg) (v : Value)
    (h : k2 ∈ rowKeys (dictInsert l k v)) : k2 ∈ rowKeys l ∨ k2 = k := by
  induction l with
  | nil =>
    rcases List.mem_cons.mp h with h1 | h1
    · exact Or.inr h1
    · cases h1
  | cons kv rest ih =>
    obtain ⟨k0, v0⟩ := kv
    by_cases h0 : k0 = k
    · rw [dictInsert, if_pos h0] at h
      rcases List.mem_cons.mp h with h1 | h1
      · exact Or.inl (h1 ▸ List.mem_cons_self _ _)
      · exact Or.inl (List.mem_cons_of_mem _ h1)
    · rw [dictInsert, if_neg h0] at h
      rcases List.mem_cons.mp h with h1 | h1
      · exact Or.inl (h1 ▸ List.mem_cons_self _ _)
      · rcases ih h1 with h2 | h2
        · exact Or.inl (List.mem_cons_of_mem _ h2)
        · exact Or.inr h2

theorem rowKeys_dictInsert_of_mem (l : List (Seg × Value)) (k : Seg) (v : Value)
    (h : k ∈ rowKeys l) : rowKeys (dictInsert l k v) = rowKeys l := by
  induction l with
  | nil => cases h
  | cons kv rest ih =>
    obtain ⟨k0, v0⟩ := kv
    by_cases h0 : k0 = k
    · rw [dictInsert, if_pos h0]
      rfl
    · rw [dictInsert, if_neg h0]
      have hm : k ∈ rowKeys rest := by
        rcases List.mem_cons.mp h with h1 | h1
        · exact absurd h1.symm h0
        · exact h1
      show k0 :: rowKeys (dictInsert rest k v) = k0 :: rowKeys rest
      rw [ih hm]

/-- Namespacing with a fixed prefix is injective in the attribute key. -/
theorem nsKey_inj_right (pfx k1 k2 : Seg) (h : nsKey pfx k1 = nsKey pfx k2) : k1 = k2 := by
  unfold nsKey at h
  have h2 : '_' :: k1 = '_' :: k2 := List.append_cancel_left h
  exact (List.cons.injEq .. ▸ h2).2

theorem dictGet?_some_mem (l : List (Seg × Value)) (k : Seg) (v : Value)
    (h : dictGet? l k = some v) : (k, v) ∈ l := by
  induction l with
  | nil => cases h
  | cons kv rest ih =>
    obtain ⟨k0, v0⟩ := kv
    by_cases h0 : k0 = k
    · rw [dictGet?, if_pos h0] at h
      exact (show (k, v) = (k0, v0) by rw [h0, Option.some.inj h]) ▸ List.mem_cons_self _ _
    · rw [dictGet?, if_neg h0] at h
      exact List.mem_cons_of_mem _ (ih h)

/-- Merging a region's items does not change the lookup of any key that is not
one of the region's (namespaced, non-geometry) item keys. -/
theorem mergeRegion_lookup_preserve (pfx : Seg) (items acc : List (Seg × Value)) (q : Seg)
    (h : ∀ kv ∈ items, kv.1 ≠ gstr → nsKey pfx kv.1 ≠ q) :
    dictGet? (mergeRegion pfx items acc) q = dictGet? acc q := by
  induction items generalizing acc with
  | nil => rfl
  | cons kv rest ih =>
    obtain ⟨k0, v0⟩ := kv
    show dictGet? (mergeRegion pfx rest
      (if k0 = gstr then acc else dictInsert acc (nsKey pfx k0) v0)) q = dictGet? acc q
    by_cases hg : k0 = gstr
    · rw [if_pos hg]
      exact ih _ (fun kv2 hm => h kv2 (List.mem_cons_of_mem _ hm))
    · rw [if_neg hg]
      rw [ih _ (fun kv2 hm => h kv2 (List.mem_cons_of_mem _ hm))]
      exact dictGet?_dictInsert_ne acc (nsKey pfx k0) q v0
        (fun he => h (k0, v0) (List.mem_cons_self _ _) hg he.symm)

/-- After merging a region whose item keys are distinct, a non-geometry item
`(k, v)` is looked up under its namespaced key with exactly the value `v`,
regardless of the accumulator. -/
theorem mergeRegion_lookup (pfx : Seg) (items acc : List (Seg × Value)) (k : Seg) (v : Value)
    (hnd : (items.map Prod.fst).Nodup) (hmem : (k, v) ∈ items) (hg : k ≠ gstr) :
    dictGet? (mergeRegion pfx items acc) (nsKey pfx k) = some v := by
  induction items generalizing acc with
  | nil => cases hmem
  | cons kv rest ih =>
    obtain ⟨k0, v0⟩ := kv
    have hnd2 : (rest.map Prod.fst).Nodup := (List.nodup_cons.mp hnd).2
    rcases List.mem_cons.mp hmem with he | hmem2
    · obtain ⟨rfl, rfl⟩ := Prod.mk.injEq .. ▸ he
      show dictGet? (mergeRegion pfx rest
        (if k = gstr then acc else dictInsert acc (nsKey pfx k) v)) (nsKey pfx k) = some v
      rw [if_neg hg]
      have hnotin : k ∉ rest.map Prod.fst := (List.nodup_cons.mp hnd).1
      rw [mergeRegion_lookup_preserve pfx rest _ (nsKey pfx k)
        (fun kv2 hm _ hns => hnotin ((nsKey_inj_right pfx kv2.1 k hns) ▸
          List.mem_map_of_mem Prod.fst hm))]
      exact dictGet?_dictInsert_self acc (nsKey pfx k) v
    · show dictGet? (mergeRegion pfx rest
        (if k0 = gstr then acc else dictInsert acc (nsKey pfx k0) v0)) (nsKey pfx k) = some v
      exact ih _ hnd2 hmem2

/-- A dataset contributes nothing for a point contained in none of its regions. -/
theorem foldRegions_no_contain (p : Point) (pfx : Seg) (cols : List Seg)
    (rs : List Region) (acc : List (Seg × Value))
    (h : ∀ r ∈ rs, r.geom p = false) : foldRegions p pfx cols rs acc = acc := by
  induction rs generalizing acc with
  | nil => rfl
  | cons r rest ih =>
    show foldRegions p pfx cols rest
      (if r.geom p then mergeRegion pfx (cols.zip r.vals) acc else acc) = acc
    rw [h r (List.mem_cons_self _ _)]
    show foldRegions p pfx cols rest acc = acc
    exact ih acc (fun r2 hm => h r2 (List.mem_cons_of_mem _ hm))

theorem foldRegions_append (p : Point) (pfx : Seg) (cols : List Seg)
    (l1 l2 : List Region) (acc : List (Seg × Value)) :
    foldRegions p pfx cols (l1 ++ l2) acc = foldRegions p pfx cols l2 (foldRegions p pfx cols l1 acc) := by
  unfold foldRegions
  exact List.foldl_append _ _ l1 l2

/-- Keys, within a dataset whose columns are distinct, map to the value of the
last containing region: if the dataset's effective region list splits as
`pre ++ r2 :: post` where `r2` contains the point and nothing in `post` does,
then looking up the namespaced key of any non-geometry column yields `r2`'s
value in that column, independent of the accumulator. -/
theorem foldRegions_last_wins (p : Point) (pfx : Seg) (cols : List Seg)
    (pre post : List Region) (r2 : Region) (acc : List (Seg × Value))
    (hc2 : r2.geom p = true) (hpost : ∀ r ∈ post, r.geom p = false)
    (hnd : cols.Nodup) (hlen : cols.length ≤ r2.vals.length)
    (k : Seg) (v : Value) (hg : k ≠ gstr)
    (hv : dictGet? (cols.zip r2.vals) k = some v) :
    dictGet? (foldRegions p pfx cols (pre ++ r2 :: post) acc) (nsKey pfx k) = some v := by
  rw [foldRegions_append]
  show dictGet? (foldRegions p pfx cols post
    (if r2.geom p then mergeRegion pfx (cols.zip r2.vals) (foldRegions p pfx cols pre acc)
     else foldRegions p pfx cols pre acc)) (nsKey pfx k) = some v
  rw [hc2]
  show dictGet? (foldRegions p pfx cols post
    (mergeRegion pfx (cols.zip r2.vals) (foldRegions p pfx cols pre acc))) (nsKey pfx k) = some v
  rw [foldRegions_no_contain p pfx cols post _ hpost]
  have hndz : ((cols.zip r2.vals).map Prod.fst).Nodup := by
    rw [List.map_fst_zip cols r2.vals hlen]
    exact hnd
  exact mergeRegion_lookup pfx _ _ k v hndz (dictGet?_some_mem _ k v hv) hg

theorem nsCols_nil : nsCols [] = [] := rfl

theorem nsCols_cons (ds : Dataset) (rest : List Dataset) :
    nsCols (ds :: rest) = dsCols ds ++ nsCols rest := by
  simp [nsCols]

/-- Keys produced by merging one region are accumulator keys or namespaced
non-geometry item keys. -/
theorem rowKeys_mergeRegion (pfx : Seg) (items acc : List (Seg × Value)) (k : Seg)
    (h : k ∈ rowKeys (mergeRegion pfx items acc)) :
    k ∈ rowKeys acc ∨ ∃ kv ∈ items, kv.1 ≠ gstr ∧ k = nsKey pfx kv.1 := by
  induction items generalizing acc with
  | nil => exact Or.inl h
  | cons kv rest ih =>
    obtain ⟨k0, v0⟩ := kv
    rw [show mergeRegion pfx ((k0, v0) :: rest) acc = mergeRegion pfx rest
      (if k0 = gstr then acc else dictInsert acc (nsKey pfx k0) v0) from rfl] at h
    rcases ih _ h with h1 | ⟨kv2, hm, hg, he⟩
    · by_cases hg : k0 = gstr
      · rw [if_pos hg] at h1
        exact Or.inl h1
      · rw [if_neg hg] at h1
        rcases rowKeys_dictInsert_mem acc (nsKey pfx k0) k v0 h1 with h2 | h2
        · exact Or.inl h2
        · exact Or.inr ⟨(k0, v0), List.mem_cons_self _ _, hg, h2⟩
    · exact Or.inr ⟨kv2, List.mem_cons_of_mem _ hm, hg, he⟩

/-- Keys produced by one dataset's containment loop are accumulator keys or
namespaced non-geometry column names. -/
theorem rowKeys_foldRegions (p : Point) (pfx : Seg) (cols : List Seg)
    (rs : List Region) (acc : List (Seg × Value)) (k : Seg)
    (h : k ∈ rowKeys (foldRegions p pfx cols rs acc)) :
    k ∈ rowKeys acc ∨ ∃ c ∈ cols, c ≠ gstr ∧ k = nsKey pfx c := by
  induction rs generalizing acc with
  | nil => exact Or.inl h
  | cons r rest ih =>
    rw [show foldRegions p pfx cols (r :: rest) acc = foldRegions p pfx cols rest
      (if r.geom p then mergeRegion pfx (cols.zip r.vals) acc else acc) from rfl] at h
    rcases ih _ h with h1 | h1
    · by_cases hc : r.geom p
      · rw [if_pos hc] at h1
        rcases rowKeys_mergeRegion pfx _ acc k h1 with h2 | ⟨kv2, hm, hg, he⟩
        · exact Or.inl h2
        · exact Or.inr ⟨kv2.1, (List.of_mem_zip hm).1, hg, he⟩
      · rw [if_neg hc] at h1
        exact Or.inl h1
    · exact Or.inr h1

/-- Lookup of a key that no non-geometry column of the dataset produces is
unchanged by the dataset's containment loop. -/
theorem foldRegions_lookup_preserve (p : Point) (pfx : Seg) (cols : List Seg)
    (rs : List Region) (acc : List (Seg × Value)) (q : Seg)
    (h : ∀ c ∈ cols, c ≠ gstr → nsKey pfx c ≠ q) :
    dictGet? (foldRegions p pfx cols rs acc) q = dictGet? acc q := by
  induction rs generalizing acc with
  | nil => rfl
  | cons r rest ih =>
    show dictGet? (foldRegions p pfx cols rest
      (if r.geom p then mergeRegion pfx (cols.zip r.vals) acc else acc)) q = dictGet? acc q
    by_cases hc : r.geom p
    · rw [if_pos hc, ih _]
      exact mergeRegion_lookup_preserve pfx _ acc q
        (fun kv hm hg => h kv.1 (List.of_mem_zip hm).1 hg)
    · rw [if_neg hc]
      exact ih acc

/-- The dataset fold succeeds when every dataset path contains the marker, and
every key of the result is an accumulator key or a namespaced column name. -/
theorem foldlM_matchStep_ok (reproject : Geom → Geom) (p : Point) :
    ∀ (dss : List Dataset) (acc : List (Seg × Value)),
    (∀ ds ∈ dss, derivePfx ds.path ≠ none) →
    ∃ l, dss.foldlM (matchStep reproject p) acc = .ok l ∧
      ∀ k ∈ rowKeys l, k ∈ rowKeys acc ∨ k ∈ nsCols dss := by
  intro dss
  induction dss with
  | nil =>
    intro acc _
    exact ⟨acc, rfl, fun k hk => Or.inl hk⟩
  | cons ds rest ih =>
    intro acc hm
    obtain ⟨pfx, hpfx⟩ := Option.ne_none_iff_exists'.mp (hm ds (List.mem_cons_self _ _))
    obtain ⟨l, hl, hkeys⟩ := ih (foldRegions p pfx ds.cols (effRegions reproject ds) acc)
      (fun d hd => hm d (List.mem_cons_of_mem _ hd))
    refine ⟨l, ?_, ?_⟩
    · rw [List.foldlM_cons]
      show (matchStep reproject p acc ds) >>= (fun b => rest.foldlM (matchStep reproject p) b)
        = Except.ok l
      rw [matchStep, hpfx]
      exact hl
    · intro k hk
      rcases hkeys k hk with h1 | h1
      · rcases rowKeys_foldRegions p pfx ds.cols _ acc k h1 with h2 | ⟨c, hc, hg, he⟩
        · exact Or.inl h2
        · refine Or.inr ?_
          rw [nsCols_cons]
          refine List.mem_append.mpr (Or.inl ?_)
          rw [dsCols, hpfx]
          exact he ▸ List.mem_map_of_mem _ (List.mem_filter.mpr ⟨hc, by simpa using hg⟩)
      · refine Or.inr ?_
        rw [nsCols_cons]
        exact List.mem_append.mpr (Or.inr h1)

/-- The dataset fold raises `ValueError` as soon as it reaches a dataset whose
path lacks the marker segment. -/
theorem foldlM_matchStep_error (reproject : Geom → Geom) (p : Point) :
    ∀ (dss : List Dataset) (acc : List (Seg × Value)),
    (∃ ds ∈ dss, derivePfx ds.path = none) →
    dss.foldlM (matchStep reproject p) acc = .error .valueError := by
  intro dss
  induction dss with
  | nil =>
    intro acc h
    obtain ⟨ds, hm, _⟩ := h
    cases hm
  | cons ds rest ih =>
    intro acc ⟨d, hd, hnone⟩
    rw [List.foldlM_cons]
    show (matchStep reproject p acc ds) >>= (fun b => rest.foldlM (matchStep reproject p) b)
      = Except.error Err.valueError
    rcases List.mem_cons.mp hd with rfl | hd2
    · rw [matchStep, hnone]
      rfl
    · cases hpfx : derivePfx ds.path with
      | none =>
        rw [matchStep, hpfx]
        rfl
      | some pfx =>
        rw [matchStep, hpfx]
        show rest.foldlM (matchStep reproject p) _ = Except.error Err.valueError
        exact ih _ ⟨d, hd2, hnone⟩

/-- With a resolved point, `check_address_in_region` wraps the dataset fold,
turning an empty dict into `None`. -/
theorem checkAddressInRegion_of_resolved (resolver : Value → Option Point)
    (reproject : Geom → Geom) (a : Value) (p : Point) (dss : List Dataset)
    (hres : resolver a = some p) :
    checkAddressInRegion resolver reproject a dss
      = (matchAll reproject p dss).map (fun l => if l.isEmpty then none else some l) := by
  unfold checkAddressInRegion
  rw [hres]

/-- Claim C4, counterexample: when no region contains the point, the matching
operation returns None (modelled `.ok none`), which is NOT the empty mapping
the claim requires: app.py line 60 (`return combined_data if combined_data
else None`) converts the empty dict into `None`. Concrete input: a resolvable
address and one dataset whose single region does not contain the point. -/
theorem c4_returns_none_not_empty :
    checkAddressInRegion (fun _ => some (0, 0)) id (Value.str "A".toList)
      [⟨[marker, "zones.shp".toList], wgs84, ["zone_id".toList], [⟨fun _ => false, [Value.str "7".toList]⟩]⟩]
      = .ok none
    ∧ (Except.ok (some ([] : List (Seg × Value))) : Except Err (Option (List (Seg × Value))))
      ≠ .ok none := by
  exact ⟨rfl, by simp⟩

/-- Claim C4, amended: when no region in any dataset contains the point (and
every dataset path contains the marker segment, so no error is raised), the
matching operation returns None — the sentinel for "not found" in this code is
None, not the empty mapping; emptiness of the merged dict is collapsed to None
before returning. -/
theorem c4_no_match_returns_none (resolver : Value → Option Point)
    (reproject : Geom → Geom) (a : Value) (p : Point) (dss : List Dataset)
    (hres : resolver a = some p)
    (hm : ∀ ds ∈ dss, derivePfx ds.path ≠ none)
    (hnone : ∀ ds ∈ dss, ∀ r ∈ effRegions reproject ds, r.geom p = false) :
    checkAddressInRegion resolver reproject a dss = .ok none := by
  rw [checkAddressInRegion_of_resolved resolver reproject a p dss hres]
  have hok : matchAll reproject p dss = .ok [] := by
    unfold matchAll
    induction dss with
    | nil => rfl
    | cons ds rest ih =>
      obtain ⟨pfx, hpfx⟩ := Option.ne_none_iff_exists'.mp (hm ds (List.mem_cons_self _ _))
      rw [List.foldlM_cons]
      show (matchStep reproject p [] ds) >>= (fun b => rest.foldlM (matchStep reproject p) b)
        = Except.ok []
      rw [matchStep, hpfx]
      show rest.foldlM (matchStep reproject p)
        (foldRegions p pfx ds.cols (effRegions reproject ds) []) = Except.ok []
      rw [foldRegions_no_contain p pfx ds.cols _ [] (hnone ds (List.mem_cons_self _ _))]
      exact ih (fun d hd => hm d (List.mem_cons_of_mem _ hd))
        (fun d hd => hnone d (List.mem_cons_of_mem _ hd))
  rw [hok]
  rfl

/-- Witness for the amended C4 theorem: a point outside the only region of a
single well-formed dataset yields None. -/
theorem c4_no_match_returns_none_witness :
    checkAddressInRegion (fun _ => some (1, 1)) id (Value.str "B".toList)
      [⟨[marker, "w.shp".toList], wgs84, ["n".toList], [⟨fun q => decide (q.1 < 0), [Value.num 3]⟩]⟩]
      = .ok none := by
  refine c4_no_match_returns_none _ id _ (1, 1) _ rfl ?_ ?_
  · intro ds hds
    rcases List.mem_singleton.mp hds with rfl
    decide
  · intro ds hds
    rcases List.mem_singleton.mp hds with rfl
    intro r hr
    rcases List.mem_singleton.mp hr with rfl
    decide

theorem matchAll_singleton (reproject : Geom → Geom) (p : Point) (ds : Dataset)
    (pfx : Seg) (hpfx : derivePfx ds.path = some pfx) :
    matchAll reproject p [ds] = .ok (foldRegions p pfx ds.cols (effRegions reproject ds) []) := by
  unfold matchAll
  rw [List.foldlM_cons]
  show (matchStep reproject p [] ds) >>= (fun b => [].foldlM (matchStep reproject p) b)
    = Except.ok (foldRegions p pfx ds.cols (effRegions reproject ds) [])
  rw [matchStep, hpfx]
  rfl

theorem matchAll_pair (reproject : Geom → Geom) (p : Point) (ds1 ds2 : Dataset)
    (pfx1 pfx2 : Seg) (hpfx1 : derivePfx ds1.path = some pfx1)
    (hpfx2 : derivePfx ds2.path = some pfx2) :
    matchAll reproject p [ds1, ds2] = .ok (foldRegions p pfx2 ds2.cols (effRegions reproject ds2)
      (foldRegions p pfx1 ds1.cols (effRegions reproject ds1) [])) := by
  unfold matchAll
  rw [List.foldlM_cons]
  show (matchStep reproject p [] ds1) >>= (fun b => [ds2].foldlM (matchStep reproject p) b)
    = Except.ok _
  rw [matchStep, hpfx1]
  show [ds2].foldlM (matchStep reproject p)
    (foldRegions p pfx1 ds1.cols (effRegions reproject ds1) []) = Except.ok _
  rw [List.foldlM_cons]
  show (matchStep reproject p _ ds2) >>= (fun b => [].foldlM (matchStep reproject p) b)
    = Except.ok _
  rw [matchStep, hpfx2]
  rfl

/-- Wrapping an engine result that contains at least one key. -/
theorem checkAddressInRegion_some_of_lookup (resolver : Value → Option Point)
    (reproject : Geom → Geom) (a : Value) (p : Point) (dss : List Dataset)
    (res : List (Seg × Value)) (q : Seg) (v : Value)
    (hres : resolver a = some p) (hok : matchAll reproject p dss = .ok res)
    (hlook : dictGet? res q = some v) :
    checkAddressInRegion resolver reproject a dss = .ok (some res) := by
  rw [checkAddressInRegion_of_resolved resolver reproject a p dss hres, hok]
  have hne : res ≠ [] := by
    intro he
    rw [he] at hlook
    cases hlook
  have hie : res.isEmpty = false := by
    cases res with
    | nil => exact absurd rfl hne
    | cons x xs => rfl
  show Except.ok (if res.isEmpty then none else some res) = Except.ok (some res)
  rw [hie]
  rfl

/-- Claim C5: within a single dataset, when the point falls inside more than
one region, the last containing region (in dataset sequence order) wins: writing
`combined_data[f"{prefix}_{key}"] = value` for regions in iteration order makes
the final lookup of every shared non-geometry attribute key return the value of
the last containing region. Here the dataset's (CRS-reconciled) region sequence
splits as `pre ++ r2 :: post`, with an earlier containing region `r1 ∈ pre`,
`r2` containing the point, and no region after `r2` containing it. -/
theorem c5_last_write_wins (resolver : Value → Option Point) (reproject : Geom → Geom)
    (a : Value) (p : Point) (ds : Dataset) (pfx : Seg)
    (pre post : List Region) (r1 r2 : Region) (k : Seg) (v : Value)
    (hres : resolver a = some p)
    (hpfx : derivePfx ds.path = some pfx)
    (heff : effRegions reproject ds = pre ++ r2 :: post)
    (hr1 : r1 ∈ pre) (hc1 : r1.geom p = true)
    (hc2 : r2.geom p = true)
    (hpost : ∀ r ∈ post, r.geom p = false)
    (hnd : ds.cols.Nodup) (hlen : ds.cols.length ≤ r2.vals.length)
    (hg : k ≠ gstr) (hv : dictGet? (ds.cols.zip r2.vals) k = some v) :
    ∃ res, checkAddressInRegion resolver reproject a [ds] = .ok (some res) ∧
      dictGet? res (nsKey pfx k) = some v := by
  have hlook : dictGet? (foldRegions p pfx ds.cols (effRegions reproject ds) [])
      (nsKey pfx k) = some v := by
    rw [heff]
    exact foldRegions_last_wins p pfx ds.cols pre post r2 [] hc2 hpost hnd hlen k v hg hv
  exact ⟨foldRegions p pfx ds.cols (effRegions reproject ds) [],
    checkAddressInRegion_some_of_lookup resolver reproject a p [ds] _ (nsKey pfx k) v hres
      (matchAll_singleton reproject p ds pfx hpfx) hlook, hlook⟩

/-- Witness for C5 at a concrete dataset of two overlapping regions sharing the
attribute key `name`: the later region's value `R2` wins. -/
theorem c5_last_write_wins_witness :
    ∃ res, checkAddressInRegion (fun _ => some (0, 0)) id (Value.str "A".toList) [c5ds]
      = .ok (some res)
    ∧ dictGet? res (nsKey "zones".toList "name".toList) = some (Value.str "R2".toList) :=
  c5_last_write_wins (fun _ => some (0, 0)) id (Value.str "A".toList) (0, 0) c5ds
    "zones".toList [c5reg1] [] c5reg1 c5reg2 "name".toList (Value.str "R2".toList)
    rfl (by decide) rfl (List.mem_singleton_self c5reg1) rfl rfl
    (fun r hr => absurd hr (List.not_mem_nil r)) (by decide) (by decide) (by decide) rfl

/-- Claim C6, counterexample: distinct dataset prefixes do NOT guarantee that
the result contains both datasets' contributions unmodified. Dataset A at
`shape_files/a.shp` (prefix `a`) with attribute `b_c = X` and dataset B at
`shape_files/a_b.shp` (prefix `a_b`) with attribute `c = Y` namespace to the
SAME key `a_b_c`; a point inside regions of both datasets yields a result
whose only entry is `(a_b_c, Y)` — dataset A's value `X` has been overwritten
even though the prefixes differ. -/
theorem c6_cross_collision :
    derivePfx c6dsA.path = some "a".toList
    ∧ derivePfx c6dsB.path = some "a_b".toList
    ∧ ("a".toList : Seg) ≠ "a_b".toList
    ∧ checkAddressInRegion (fun _ => some (0, 0)) id (Value.str "A".toList) [c6dsA, c6dsB]
        = .ok (some [("a_b_c".toList, Value.str "Y".toList)]) :=
  ⟨rfl, rfl, by decide, rfl⟩

/-- Claim C6, amended: matching does not stop at the first containing dataset,
and for a point contained in regions of two datasets the result mapping holds
the namespaced attribute keys contributed by both datasets with their values
unmodified, provided the two datasets' full namespaced key sets are disjoint
(which distinct prefixes alone do not ensure, as the counterexample shows).
Each dataset's effective region sequence splits as `pre ++ r :: post` with `r`
its last containing region. -/
theorem c6_cross_dataset_union_amended (resolver : Value → Option Point)
    (reproject : Geom → Geom) (a : Value) (p : Point) (ds1 ds2 : Dataset)
    (pfx1 pfx2 : Seg) (pre1 post1 pre2 post2 : List Region) (r1 r2 : Region)
    (k1 k2 : Seg) (v1 v2 : Value)
    (hres : resolver a = some p)
    (hpfx1 : derivePfx ds1.path = some pfx1)
    (hpfx2 : derivePfx ds2.path = some pfx2)
    (hdisj : ∀ x ∈ ds1.cols, ∀ y ∈ ds2.cols, x ≠ gstr → y ≠ gstr →
      nsKey pfx1 x ≠ nsKey pfx2 y)
    (heff1 : effRegions reproject ds1 = pre1 ++ r1 :: post1)
    (hc1 : r1.geom p = true) (hpost1 : ∀ r ∈ post1, r.geom p = false)
    (hnd1 : ds1.cols.Nodup) (hlen1 : ds1.cols.length ≤ r1.vals.length)
    (hg1 : k1 ≠ gstr) (hv1 : dictGet? (ds1.cols.zip r1.vals) k1 = some v1)
    (heff2 : effRegions reproject ds2 = pre2 ++ r2 :: post2)
    (hc2 : r2.geom p = true) (hpost2 : ∀ r ∈ post2, r.geom p = false)
    (hnd2 : ds2.cols.Nodup) (hlen2 : ds2.cols.length ≤ r2.vals.length)
    (hg2 : k2 ≠ gstr) (hv2 : dictGet? (ds2.cols.zip r2.vals) k2 = some v2) :
    ∃ res, checkAddressInRegion resolver reproject a [ds1, ds2] = .ok (some res)
      ∧ dictGet? res (nsKey pfx1 k1) = some v1
      ∧ dictGet? res (nsKey pfx2 k2) = some v2 := by
  have hk1mem : k1 ∈ ds1.cols :=
    (List.of_mem_zip (dictGet?_some_mem _ k1 v1 hv1)).1
  have hlook1 : dictGet? (foldRegions p pfx2 ds2.cols (effRegions reproject ds2)
      (foldRegions p pfx1 ds1.cols (effRegions reproject ds1) [])) (nsKey pfx1 k1) = some v1 := by
    rw [foldRegions_lookup_preserve p pfx2 ds2.cols _ _ (nsKey pfx1 k1)
      (fun c hc hg => (hdisj k1 hk1mem c hc hg1 hg).symm)]
    rw [heff1]
    exact foldRegions_last_wins p pfx1 ds1.cols pre1 post1 r1 [] hc1 hpost1 hnd1 hlen1 k1 v1 hg1 hv1
  have hlook2 : dictGet? (foldRegions p pfx2 ds2.cols (effRegions reproject ds2)
      (foldRegions p pfx1 ds1.cols (effRegions reproject ds1) [])) (nsKey pfx2 k2) = some v2 := by
    rw [heff2]
    exact foldRegions_last_wins p pfx2 ds2.cols pre2 post2 r2 _ hc2 hpost2 hnd2 hlen2 k2 v2 hg2 hv2
  exact ⟨_, checkAddressInRegion_some_of_lookup resolver reproject a p [ds1, ds2] _
    (nsKey pfx1 k1) v1 hres (matchAll_pair reproject p ds1 ds2 pfx1 pfx2 hpfx1 hpfx2) hlook1,
    hlook1, hlook2⟩

/-- Witness for the amended C6 theorem: two datasets with disjoint namespaced
keys (`a_b` and `d_c`) both containing the point contribute both entries. -/
theorem c6_cross_dataset_union_amended_witness :
    ∃ res, checkAddressInRegion (fun _ => some (0, 0)) id (Value.str "A".toList)
      [c6wds1, c6wds2] = .ok (some res)
    ∧ dictGet? res (nsKey "a".toList "b".toList) = some (Value.str "X".toList)
    ∧ dictGet? res (nsKey "d".toList "c".toList) = some (Value.str "Y".toList) :=
  c6_cross_dataset_union_amended (fun _ => some (0, 0)) id (Value.str "A".toList) (0, 0)
    c6wds1 c6wds2 "a".toList "d".toList [] [] [] [] c6wr1 c6wr2
    "b".toList "c".toList (Value.str "X".toList) (Value.str "Y".toList)
    rfl rfl rfl (by decide) rfl rfl
    (fun r hr => absurd hr (List.not_mem_nil r)) (by decide) (by decide) (by decide) rfl
    rfl rfl (fun r hr => absurd hr (List.not_mem_nil r)) (by decide) (by decide) (by decide) rfl

/-- If a point lies on some edge, the boundary-first scan answers true
regardless of the accumulated crossing parity. -/
theorem pwScan_true_of_onSeg (p : Point) (es : List (Point × Point)) (e : Point × Point)
    (hmem : e ∈ es) (hseg : onSeg p e.1 e.2 = true) :
    ∀ inside, pwScan p es inside = true := by
  induction es with
  | nil => cases hmem
  | cons e0 rest ih =>
    intro inside
    rcases List.mem_cons.mp hmem with rfl | hmem2
    · show (if onSeg p e.1 e.2 then true else
        pwScan p rest (xor (rayCross p e.1 e.2) inside)) = true
      rw [if_pos hseg]
    · show (if onSeg p e0.1 e0.2 then true else
        pwScan p rest (xor (rayCross p e0.1 e0.2) inside)) = true
      by_cases h0 : onSeg p e0.1 e0.2
      · rw [if_pos h0]
      · rw [if_neg h0]
        exact ih hmem2 _

/-- Claim C3: the point-in-polygon containment test counts a point lying
exactly on the polygon's boundary as contained: for every polygon and every
point on one of its boundary edges, `pointWithin` returns true. (The primitive
is spec-modelled: the repository delegates containment to the external shapely
library, see the doc comment of `onSeg`.) -/
theorem c3_boundary_contained (p : Point) (poly : List Point) (e : Point × Point)
    (hmem : e ∈ edges poly) (hseg : onSeg p e.1 e.2 = true) :
    pointWithin p poly = true :=
  pwScan_true_of_onSeg p (edges poly) e hmem hseg false

/-- Witness for C3: the midpoint `(1, 0)` of the bottom edge of the unit-2
square is on the boundary and is reported as contained. -/
theorem c3_boundary_contained_witness :
    pointWithin (1, 0) [(0, 0), (2, 0), (2, 2), (0, 2)] = true :=
  c3_boundary_contained (1, 0) [(0, 0), (2, 0), (2, 2), (0, 2)] ((0, 0), (2, 0))
    (by decide) (by decide)

theorem dictGet?_exists_of_mem (l : List (Seg × Value)) (k : Seg) (h : k ∈ rowKeys l) :
    ∃ v, dictGet? l k = some v := by
  induction l with
  | nil => cases h
  | cons kv rest ih =>
    obtain ⟨k0, v0⟩ := kv
    by_cases h0 : k0 = k
    · exact ⟨v0, by rw [dictGet?, if_pos h0]⟩
    · rcases List.mem_cons.mp h with he | h2
      · exact absurd he.symm h0
      · obtain ⟨v, hv⟩ := ih h2
        exact ⟨v, by rw [dictGet?, if_neg h0, hv]⟩

theorem list_set_eq_of_get? {α : Type} (l : List α) (i : Nat) (a : α)
    (h : l.get? i = some a) : l.set i a = l := by
  induction l generalizing i with
  | nil => cases h
  | cons x rest ih =>
    cases i with
    | zero =>
      rw [List.get?] at h
      rw [Option.some.inj h]
      rfl
    | succ j =>
      rw [List.get?] at h
      show x :: rest.set j a = x :: rest
      rw [ih j h]

theorem list_get?_append_cons {α : Type} (A : List α) (x : α) (B : List α) :
    (A ++ x :: B).get? A.length = some x := by
  induction A with
  | nil => rfl
  | cons a rest ih => exact ih

theorem list_set_append_cons {α : Type} (A : List α) (x y : α) (B : List α) :
    (A ++ x :: B).set A.length y = A ++ y :: B := by
  induction A with
  | nil => rfl
  | cons a rest ih =>
    show a :: (rest ++ x :: B).set rest.length y = a :: (rest ++ y :: B)
    rw [ih]

theorem dictGet?_foldl_dictInsert_preserve (l : List (Seg × Value)) :
    ∀ (r : Row) (q : Seg), q ∉ rowKeys l →
    dictGet? (l.foldl (fun r2 kv => dictInsert r2 kv.1 kv.2) r) q = dictGet? r q := by
  induction l with
  | nil => intro r q _; rfl
  | cons kv rest ih =>
    intro r q hq
    obtain ⟨k0, v0⟩ := kv
    show dictGet? (rest.foldl (fun r2 kv => dictInsert r2 kv.1 kv.2) (dictInsert r k0 v0)) q
      = dictGet? r q
    rw [ih _ q (fun hm => hq (List.mem_cons_of_mem _ hm))]
    exact dictGet?_dictInsert_ne r k0 q v0 (fun he => hq (he ▸ List.mem_cons_self _ _))

theorem dictGet?_foldl_dictInsert_of_nodup (l : List (Seg × Value)) :
    ∀ (r : Row) (k : Seg) (v : Value), (rowKeys l).Nodup → (k, v) ∈ l →
    dictGet? (l.foldl (fun r2 kv => dictInsert r2 kv.1 kv.2) r) k = some v := by
  induction l with
  | nil => intro r k v _ hm; cases hm
  | cons kv rest ih =>
    intro r k v hnd hm
    obtain ⟨k0, v0⟩ := kv
    show dictGet? (rest.foldl (fun r2 kv => dictInsert r2 kv.1 kv.2) (dictInsert r k0 v0)) k
      = some v
    rcases List.mem_cons.mp hm with he | h2
    · obtain ⟨rfl, rfl⟩ := Prod.mk.injEq .. ▸ he
      rw [dictGet?_foldl_dictInsert_preserve rest _ k (List.nodup_cons.mp hnd).1]
      exact dictGet?_dictInsert_self r k v
    · exact ih _ k v (List.nodup_cons.mp hnd).2 h2

theorem rowKeys_dictInsert_nodup (l : List (Seg × Value)) (k : Seg) (v : Value)
    (h : (rowKeys l).Nodup) : (rowKeys (dictInsert l k v)).Nodup := by
  by_cases hm : k ∈ rowKeys l
  · rw [rowKeys_dictInsert_of_mem l k v hm]
    exact h
  · have : rowKeys (dictInsert l k v) = rowKeys l ++ [k] := by
      induction l with
      | nil => rfl
      | cons kv rest ih =>
        obtain ⟨k0, v0⟩ := kv
        have h0 : k0 ≠ k := fun he => hm (he ▸ List.mem_cons_self _ _)
        rw [dictInsert, if_neg h0]
        show k0 :: rowKeys (dictInsert rest k v) = (k0 :: rowKeys rest) ++ [k]
        rw [ih (List.nodup_cons.mp h).2 (fun hm2 => hm (List.mem_cons_of_mem _ hm2))]
        rfl
    rw [this]
    refine List.Nodup.append h (List.nodup_singleton k) ?_
    intro x hx hx2
    rcases List.mem_singleton.mp hx2 with rfl
    exact hm hx

theorem rowKeys_foldl_dictInsert_of_mem (l : List (Seg × Value)) :
    ∀ (r : Row), (∀ kv ∈ l, kv.1 ∈ rowKeys r) →
    rowKeys (l.foldl (fun r2 kv => dictInsert r2 kv.1 kv.2) r) = rowKeys r := by
  induction l with
  | nil => intro r _; rfl
  | cons kv rest ih =>
    intro r hsub
    obtain ⟨k0, v0⟩ := kv
    show rowKeys (rest.foldl (fun r2 kv => dictInsert r2 kv.1 kv.2) (dictInsert r k0 v0))
      = rowKeys r
    have hk0 : k0 ∈ rowKeys r := hsub (k0, v0) (List.mem_cons_self _ _)
    rw [ih _ (fun kv2 hm => by
      rw [rowKeys_dictInsert_of_mem r k0 v0 hk0]
      exact hsub kv2 (List.mem_cons_of_mem _ hm))]
    exact rowKeys_dictInsert_of_mem r k0 v0 hk0

theorem rowKeys_append (xs ys : Row) : rowKeys (xs ++ ys) = rowKeys xs ++ rowKeys ys :=
  List.map_append Prod.fst xs ys

theorem rowKeys_map_pair (cs : List Seg) (v : Value) :
    rowKeys (cs.map (fun c => (c, v))) = cs := by
  induction cs with
  | nil => rfl
  | cons c rest ih =>
    show c :: rowKeys (rest.map (fun c => (c, v))) = c :: rest
    rw [ih]

theorem dictGet?_map_pair (cs : List Seg) (v : Value) (c : Seg) (h : c ∈ cs) :
    dictGet? (cs.map (fun c => (c, v))) c = some v := by
  induction cs with
  | nil => cases h
  | cons c0 rest ih =>
    by_cases h0 : c0 = c
    · show (if c0 = c then some v else _) = some v
      rw [if_pos h0]
    · show (if c0 = c then some v else dictGet? (rest.map (fun c => (c, v))) c) = some v
      rcases List.mem_cons.mp h with he | h2
      · exact absurd he.symm h0
      · rw [if_neg h0, ih h2]

theorem rowKeys_mergeRegion_nodup (pfx : Seg) (items : List (Seg × Value)) :
    ∀ (acc : List (Seg × Value)), (rowKeys acc).Nodup →
    (rowKeys (mergeRegion pfx items acc)).Nodup := by
  induction items with
  | nil => intro acc h; exact h
  | cons kv rest ih =>
    intro acc h
    obtain ⟨k0, v0⟩ := kv
    show (rowKeys (mergeRegion pfx rest
      (if k0 = gstr then acc else dictInsert acc (nsKey pfx k0) v0))).Nodup
    by_cases hg : k0 = gstr
    · rw [if_pos hg]
      exact ih acc h
    · rw [if_neg hg]
      exact ih _ (rowKeys_dictInsert_nodup acc _ v0 h)

theorem rowKeys_foldRegions_nodup (p : Point) (pfx : Seg) (cols : List Seg)
    (rs : List Region) : ∀ (acc : List (Seg × Value)), (rowKeys acc).Nodup →
    (rowKeys (foldRegions p pfx cols rs acc)).Nodup := by
  induction rs with
  | nil => intro acc h; exact h
  | cons r rest ih =>
    intro acc h
    show (rowKeys (foldRegions p pfx cols rest
      (if r.geom p then mergeRegion pfx (cols.zip r.vals) acc else acc))).Nodup
    by_cases hc : r.geom p
    · rw [if_pos hc]
      exact ih _ (rowKeys_mergeRegion_nodup pfx _ acc h)
    · rw [if_neg hc]
      exact ih acc h

theorem foldlM_matchStep_nodup (reproject : Geom → Geom) (p : Point) :
    ∀ (dss : List Dataset) (acc l : List (Seg × Value)), (rowKeys acc).Nodup →
    dss.foldlM (matchStep reproject p) acc = .ok l → (rowKeys l).Nodup := by
  intro dss
  induction dss with
  | nil =>
    intro acc l h hok
    exact (Except.ok.inj hok) ▸ h
  | cons ds rest ih =>
    intro acc l h hok
    rw [List.foldlM_cons] at hok
    cases hpfx : derivePfx ds.path with
    | none =>
      rw [show (matchStep reproject p acc ds) >>= (fun b => rest.foldlM (matchStep reproject p) b)
        = .error .valueError from by rw [matchStep, hpfx]; rfl] at hok
      cases hok
    | some pfx =>
      rw [show (matchStep reproject p acc ds) >>= (fun b => rest.foldlM (matchStep reproject p) b)
        = rest.foldlM (matchStep reproject p)
            (foldRegions p pfx ds.cols (effRegions reproject ds) acc) from by
          rw [matchStep, hpfx]; rfl] at hok
      exact ih _ l (rowKeys_foldRegions_nodup p pfx ds.cols _ acc h) hok

/-- On marker-containing dataset paths the check never raises, returns `rdOf`,
and any returned dict is nonempty with namespaced-column keys, no key repeated. -/
theorem check_ok_and_keys (resolver : Value → Option Point) (reproject : Geom → Geom)
    (a : Value) (dss : List Dataset) (hm : ∀ ds ∈ dss, derivePfx ds.path ≠ none) :
    checkAddressInRegion resolver reproject a dss = .ok (rdOf resolver reproject dss a)
    ∧ ∀ l, rdOf resolver reproject dss a = some l →
        l ≠ [] ∧ (∀ k ∈ rowKeys l, k ∈ nsCols dss) ∧ (rowKeys l).Nodup := by
  cases hres : resolver a with
  | none =>
    have hc : checkAddressInRegion resolver reproject a dss = .ok none := by
      unfold checkAddressInRegion
      rw [hres]
    refine ⟨?_, ?_⟩
    · rw [hc, rdOf, hc]
    · intro l hl
      rw [rdOf, hc] at hl
      cases hl
  | some p =>
    obtain ⟨ml, hml, hkeys⟩ := foldlM_matchStep_ok reproject p dss [] hm
    have hnd : (rowKeys ml).Nodup := foldlM_matchStep_nodup reproject p dss [] ml
      (by exact List.nodup_nil) hml
    have hc : checkAddressInRegion resolver reproject a dss
        = .ok (if ml.isEmpty then none else some ml) := by
      rw [checkAddressInRegion_of_resolved resolver reproject a p dss hres]
      show (matchAll reproject p dss).map _ = _
      rw [show matchAll reproject p dss = .ok ml from hml]
      rfl
    refine ⟨?_, ?_⟩
    · rw [hc, rdOf, hc]
    · intro l hl
      rw [rdOf, hc] at hl
      by_cases hie : ml.isEmpty
      · rw [if_pos hie] at hl
        cases hl
      · rw [if_neg hie] at hl
        obtain rfl := Option.some.inj hl
        refine ⟨fun he => hie (he ▸ rfl), fun k hk => ?_, hnd⟩
        rcases hkeys k hk with h1 | h1
        · cases h1
        · exact h1

theorem setCol_not_mem (t : Table) (c : Seg) (v : Value) (h : c ∉ t.cols) :
    setCol t c v = ⟨t.cols ++ [c], t.rows.map (fun r => r ++ [(c, v)])⟩ := by
  rw [setCol, if_neg h]

/-- The inner loop of column setup appends one null column per (namespaced)
attribute name, in order, when the new names are fresh and distinct. -/
theorem foldl_setup_inner (f : Seg → Seg) : ∀ (cs : List Seg) (t : Table) (al : List Seg),
    (∀ c ∈ cs, f c ∉ t.cols) → (cs.map f).Nodup →
    cs.foldl (fun acc2 c => (setCol acc2.1 (f c) Value.null, acc2.2 ++ [f c])) (t, al)
      = (⟨t.cols ++ cs.map f,
          t.rows.map (fun r => r ++ (cs.map f).map (fun c => (c, Value.null)))⟩,
         al ++ cs.map f) := by
  intro cs
  induction cs with
  | nil =>
    intro t al _ _
    show (t, al) = (⟨t.cols ++ [], t.rows.map (fun r => r ++ [])⟩, al ++ [])
    simp
  | cons c rest ih =>
    intro t al hfresh hnd
    show rest.foldl (fun acc2 c => (setCol acc2.1 (f c) Value.null, acc2.2 ++ [f c]))
      (setCol t (f c) Value.null, al ++ [f c]) = _
    rw [setCol_not_mem t (f c) Value.null (hfresh c (List.mem_cons_self _ _))]
    rw [ih ⟨t.cols ++ [f c], t.rows.map (fun r => r ++ [(f c, Value.null)])⟩ (al ++ [f c])
      (fun c2 hc2 hmem => by
        rcases List.mem_append.mp hmem with h1 | h1
        · exact hfresh c2 (List.mem_cons_of_mem _ hc2) h1
        · rcases List.mem_singleton.mp h1 with he
          exact (List.nodup_cons.mp (by simpa using hnd)).1 (he ▸ List.mem_map_of_mem f hc2))
      (List.nodup_cons.mp (by simpa using hnd)).2]
    refine Prod.ext ?_ ?_
    · show Table.mk ((t.cols ++ [f c]) ++ rest.map f) _ = Table.mk (t.cols ++ f c :: rest.map f) _
      rw [Table.mk.injEq]
      constructor
      · simp
      · rw [List.map_map]
        refine List.map_congr_left ?_
        intro r _
        show (r ++ [(f c, Value.null)]) ++ (rest.map f).map (fun c => (c, Value.null))
          = r ++ (f c :: rest.map f).map (fun c => (c, Value.null))
        simp
    · show (al ++ [f c]) ++ rest.map f = al ++ f c :: rest.map f
      simp

/-- One setup step appends exactly the dataset's namespaced columns. -/
theorem setupStep_ok (t : Table) (al : List Seg) (ds : Dataset) (pfx : Seg)
    (hpfx : derivePfx ds.path = some pfx)
    (hfresh : ∀ c ∈ dsCols ds, c ∉ t.cols) (hnd : (dsCols ds).Nodup) :
    setupStep (t, al) ds = .ok (⟨t.cols ++ dsCols ds,
      t.rows.map (fun r => r ++ (dsCols ds).map (fun c => (c, Value.null)))⟩, al ++ dsCols ds) := by
  have hds : dsCols ds = (ds.cols.filter (fun c => decide (c ≠ gstr))).map (nsKey pfx) := by
    rw [dsCols, hpfx]
    rfl
  rw [setupStep, hpfx]
  rw [hds] at hfresh hnd
  show Except.ok ((ds.cols.filter (fun c => decide (c ≠ gstr))).foldl
    (fun acc2 c => (setCol acc2.1 (nsKey pfx c) Value.null, acc2.2 ++ [nsKey pfx c])) (t, al)) = _
  rw [foldl_setup_inner (nsKey pfx) (ds.cols.filter (fun c => decide (c ≠ gstr))) t al
    (fun c hc => hfresh (nsKey pfx c) (List.mem_map_of_mem _ hc)) hnd, hds]

/-- Column setup succeeds on marker-containing fresh distinct column names and
appends all namespaced columns (null everywhere) in dataset-then-attribute
order, also returning them as `all_columns`. -/
theorem foldlM_setupStep_ok : ∀ (dss : List Dataset) (t : Table) (al : List Seg),
    (∀ ds ∈ dss, derivePfx ds.path ≠ none) →
    (∀ c ∈ nsCols dss, c ∉ t.cols) → (nsCols dss).Nodup →
    dss.foldlM setupStep (t, al) = .ok (⟨t.cols ++ nsCols dss,
      t.rows.map (fun r => r ++ (nsCols dss).map (fun c => (c, Value.null)))⟩, al ++ nsCols dss) := by
  intro dss
  induction dss with
  | nil =>
    intro t al _ _ _
    show Except.ok (t, al) = _
    rw [nsCols_nil]
    simp
  | cons ds rest ih =>
    intro t al hm hfresh hnd
    rw [nsCols_cons] at hfresh hnd
    obtain ⟨pfx, hpfx⟩ := Option.ne_none_iff_exists'.mp (hm ds (List.mem_cons_self _ _))
    obtain ⟨hnd1, hnd2, hdisj⟩ := List.nodup_append.mp hnd
    rw [List.foldlM_cons]
    show (setupStep (t, al) ds) >>= (fun b => rest.foldlM setupStep b) = _
    rw [setupStep_ok t al ds pfx hpfx
      (fun c hc => hfresh c (List.mem_append.mpr (Or.inl hc))) hnd1]
    show rest.foldlM setupStep _ = _
    rw [ih _ _ (fun d hd => hm d (List.mem_cons_of_mem _ hd))
      (fun c hc hmem => by
        rcases List.mem_append.mp hmem with h1 | h1
        · exact hfresh c (List.mem_append.mpr (Or.inr hc)) h1
        · exact hdisj h1 hc)
      hnd2]
    rw [nsCols_cons]
    rw [Except.ok.injEq, Prod.mk.injEq]
    refine ⟨?_, by simp⟩
    rw [Table.mk.injEq]
    constructor
    · simp
    · rw [List.map_map]
      refine List.map_congr_left ?_
      intro r _
      show (r ++ (dsCols ds).map (fun c => (c, Value.null)))
          ++ (nsCols rest).map (fun c => (c, Value.null))
        = r ++ (dsCols ds ++ nsCols rest).map (fun c => (c, Value.null))
      simp

/-- Column setup raises `ValueError` when any dataset path lacks the marker. -/
theorem foldlM_setupStep_error : ∀ (dss : List Dataset) (acc : Table × List Seg),
    (∃ ds ∈ dss, derivePfx ds.path = none) →
    dss.foldlM setupStep acc = .error .valueError := by
  intro dss
  induction dss with
  | nil =>
    intro acc h
    obtain ⟨ds, hm, _⟩ := h
    cases hm
  | cons ds rest ih =>
    intro acc ⟨d, hd, hnone⟩
    rw [List.foldlM_cons]
    show (setupStep acc ds) >>= (fun b => rest.foldlM setupStep b) = Except.error Err.valueError
    rcases List.mem_cons.mp hd with rfl | hd2
    · rw [setupStep, hnone]
      rfl
    · cases hpfx : derivePfx ds.path with
      | none =>
        rw [setupStep, hpfx]
        rfl
      | some pfx =>
        rw [setupStep, hpfx]
        show rest.foldlM setupStep _ = Except.error Err.valueError
        exact ih _ ⟨d, hd2, hnone⟩

theorem setCell_existing (t : Table) (i : Nat) (c : Seg) (v : Value) (r : Row)
    (hc : c ∈ t.cols) (hrow : t.rows.get? i = some r) :
    setCell t i c v = ⟨t.cols, t.rows.set i (dictInsert r c v)⟩ := by
  rw [setCell, if_pos hc, hrow]

theorem foldl_setCell (l : List (Seg × Value)) : ∀ (t : Table) (i : Nat) (r : Row),
    (∀ kv ∈ l, kv.1 ∈ t.cols) → t.rows.get? i = some r →
    l.foldl (fun t2 kv => setCell t2 i kv.1 kv.2) t
      = ⟨t.cols, t.rows.set i (l.foldl (fun r2 kv => dictInsert r2 kv.1 kv.2) r)⟩ := by
  induction l with
  | nil =>
    intro t i r _ hrow
    show t = ⟨t.cols, t.rows.set i r⟩
    rw [list_set_eq_of_get? t.rows i r hrow]
  | cons kv rest ih =>
    intro t i r hcols hrow
    obtain ⟨k0, v0⟩ := kv
    show rest.foldl (fun t2 kv => setCell t2 i kv.1 kv.2) (setCell t i k0 v0) = _
    rw [setCell_existing t i k0 v0 r (hcols (k0, v0) (List.mem_cons_self _ _)) hrow]
    have hlt : i < t.rows.length := by
      rw [List.get?_eq_getElem?] at hrow
      exact (List.getElem?_eq_some.mp hrow).1
    have hrow2 : (t.rows.set i (dictInsert r k0 v0)).get? i = some (dictInsert r k0 v0) := by
      rw [List.get?_eq_getElem?, List.getElem?_set_self']
      simp [List.getElem?_eq_getElem hlt]
    rw [ih ⟨t.cols, t.rows.set i (dictInsert r k0 v0)⟩ i (dictInsert r k0 v0)
      (fun kv2 hm => hcols kv2 (List.mem_cons_of_mem _ hm)) hrow2]
    rw [Table.mk.injEq]
    exact ⟨rfl, List.set_set _ _ _ _⟩

/-- One iteration of the per-record loop replaces row `i` by its enriched
version and changes nothing else, provided every dataset path contains the
marker, row `i` is a padded original row with an address cell, and all
namespaced columns and the flag column exist in the table. -/
theorem processRow_eq (resolver : Value → Option Point) (reproject : Geom → Geom)
    (dss : List Dataset) (t : Table) (i : Nat) (r : Row) (a : Value)
    (hm : ∀ ds ∈ dss, derivePfx ds.path ≠ none)
    (hrow : t.rows.get? i = some (padRow dss r))
    (haddr : dictGet? r addrCol = some a)
    (hns : ∀ c ∈ nsCols dss, c ∈ t.cols)
    (hir : irCol ∈ t.cols) :
    processRow resolver reproject dss t i
      = .ok ⟨t.cols, t.rows.set i (enrichRow (rdOf resolver reproject dss a) (padRow dss r))⟩ := by
  have hpad : dictGet? (padRow dss r) addrCol = some a := by
    rw [padRow]
    exact dictGet?_append_left _ _ addrCol a (dictGet?_append_left _ _ addrCol a haddr)
  have hget : getCell t i addrCol = some a := by
    rw [getCell, hrow]
    exact hpad
  obtain ⟨hcheck, hprops⟩ := check_ok_and_keys resolver reproject a dss hm
  rw [processRow, hget]
  show (match checkAddressInRegion resolver reproject a dss with
    | .error e => Except.error e
    | .ok rd => _) = _
  rw [hcheck]
  cases hrd : rdOf resolver reproject dss a with
  | none =>
    show Except.ok t = _
    rw [show enrichRow none (padRow dss r) = padRow dss r from rfl,
      list_set_eq_of_get? t.rows i (padRow dss r) hrow]
  | some l =>
    obtain ⟨hne, hsub, _⟩ := hprops l hrd
    have hie : l.isEmpty = false := by
      cases l with
      | nil => exact absurd rfl hne
      | cons x xs => rfl
    show (if l.isEmpty then Except.ok t else Except.ok (l.foldl
      (fun t2 kv => setCell t2 i kv.1 kv.2) (setCell t i irCol (Value.bool true)))) = _
    rw [hie]
    show Except.ok (l.foldl (fun t2 kv => setCell t2 i kv.1 kv.2)
      (setCell t i irCol (Value.bool true))) = _
    rw [setCell_existing t i irCol (Value.bool true) (padRow dss r) hir hrow]
    have hlt : i < t.rows.length := by
      rw [List.get?_eq_getElem?] at hrow
      exact (List.getElem?_eq_some.mp hrow).1
    have hrow2 : (t.rows.set i (dictInsert (padRow dss r) irCol (Value.bool true))).get? i
        = some (dictInsert (padRow dss r) irCol (Value.bool true)) := by
      rw [List.get?_eq_getElem?, List.getElem?_set_self']
      simp [List.getElem?_eq_getElem hlt]
    rw [foldl_setCell l ⟨t.cols, t.rows.set i (dictInsert (padRow dss r) irCol (Value.bool true))⟩
      i (dictInsert (padRow dss r) irCol (Value.bool true))
      (fun kv hm2 => hns kv.1 (hsub kv.1 (List.mem_map_of_mem Prod.fst hm2))) hrow2]
    show Except.ok (⟨t.cols, (t.rows.set i (dictInsert (padRow dss r) irCol (Value.bool true))).set i
        (l.foldl (fun r2 kv => dictInsert r2 kv.1 kv.2)
          (dictInsert (padRow dss r) irCol (Value.bool true)))⟩ : Table)
      = Except.ok (⟨t.cols, t.rows.set i (enrichRow (some l) (padRow dss r))⟩ : Table)
    rw [Except.ok.injEq, Table.mk.injEq]
    refine ⟨rfl, ?_⟩
    rw [List.set_set]
    rw [show enrichRow (some l) (padRow dss r) = l.foldl (fun r2 kv => dictInsert r2 kv.1 kv.2)
      (dictInsert (padRow dss r) irCol (Value.bool true)) from by rw [enrichRow, hie]; rfl]

/-- The per-record loop processes the remaining (padded) rows in order, turning
each into its final enriched row, and touches nothing else. -/
theorem rows_loop (resolver : Value → Option Point) (reproject : Geom → Geom)
    (dss : List Dataset) (C : List Seg)
    (hm : ∀ ds ∈ dss, derivePfx ds.path ≠ none)
    (hns : ∀ c ∈ nsCols dss, c ∈ C) (hir : irCol ∈ C) :
    ∀ (todo done : List Row), (∀ r ∈ todo, addrCol ∈ rowKeys r) →
    (List.range' done.length todo.length).foldlM
        (processRow resolver reproject dss) (⟨C, done ++ todo.map (padRow dss)⟩ : Table)
      = .ok ⟨C, done ++ todo.map (finalRow resolver reproject dss)⟩ := by
  intro todo
  induction todo with
  | nil =>
    intro done _
    show Except.ok (⟨C, done ++ []⟩ : Table) = Except.ok (⟨C, done ++ []⟩ : Table)
    rfl
  | cons r rest ih =>
    intro done haddrs
    obtain ⟨a, ha⟩ := dictGet?_exists_of_mem r addrCol (haddrs r (List.mem_cons_self _ _))
    rw [List.length_cons, List.range'_succ done.length rest.length 1, List.foldlM_cons]
    have hrow : (⟨C, done ++ (r :: rest).map (padRow dss)⟩ : Table).rows.get? done.length
        = some (padRow dss r) :=
      list_get?_append_cons done (padRow dss r) (rest.map (padRow dss))
    rw [show (processRow resolver reproject dss (⟨C, done ++ (r :: rest).map (padRow dss)⟩ : Table)
        done.length) = .ok ⟨C, (done ++ padRow dss r :: rest.map (padRow dss)).set done.length
          (enrichRow (rdOf resolver reproject dss a) (padRow dss r))⟩ from
      processRow_eq resolver reproject dss _ done.length r a hm hrow ha hns hir]
    show (List.range' (done.length + 1) rest.length).foldlM (processRow resolver reproject dss)
      (⟨C, (done ++ padRow dss r :: rest.map (padRow dss)).set done.length
        (enrichRow (rdOf resolver reproject dss a) (padRow dss r))⟩ : Table) = _
    rw [list_set_append_cons done (padRow dss r) _ (rest.map (padRow dss))]
    have hfin : finalRow resolver reproject dss r
        = enrichRow (rdOf resolver reproject dss a) (padRow dss r) := by
      rw [finalRow, ha]
    have hlen : done.length + 1 = (done ++ [finalRow resolver reproject dss r]).length := by
      simp
    have hsplit : done ++ finalRow resolver reproject dss r :: rest.map (padRow dss)
        = (done ++ [finalRow resolver reproject dss r]) ++ rest.map (padRow dss) := by
      simp
    rw [← hfin, hsplit, hlen,
      ih (done ++ [finalRow resolver reproject dss r])
        (fun r2 hm2 => haddrs r2 (List.mem_cons_of_mem _ hm2))]
    rw [Except.ok.injEq, Table.mk.injEq]
    exact ⟨rfl, by simp⟩

/-- Exact characterization of `process_addresses` on well-formed inputs: when
every dataset path contains the marker, the namespaced region column names are
distinct and do not collide with the input columns, neither does `in_region`,
and every input row has an `address` cell, the driver succeeds and returns the
table whose columns are the original ones, then the region columns in
dataset-then-attribute order, then `in_region`, and whose rows are, in input
order, exactly the padded-then-enriched original rows. -/
theorem processAddresses_exact (resolver : Value → Option Point) (reproject : Geom → Geom)
    (df : Table) (dss : List Dataset)
    (hm : ∀ ds ∈ dss, derivePfx ds.path ≠ none)
    (hfresh : ∀ c ∈ nsCols dss, c ∉ df.cols)
    (hnd : (nsCols dss).Nodup)
    (hirdf : irCol ∉ df.cols) (hirns : irCol ∉ nsCols dss)
    (haddr : ∀ r ∈ df.rows, addrCol ∈ rowKeys r) :
    processAddresses resolver reproject df dss
      = .ok ⟨df.cols ++ nsCols dss ++ [irCol],
             df.rows.map (finalRow resolver reproject dss)⟩ := by
  have hsetup := foldlM_setupStep_ok dss df [] hm hfresh hnd
  rw [processAddresses]
  show (setupColumns df dss) >>= (fun setup => _) = _
  rw [setupColumns, hsetup]
  show (List.range (setCol (⟨df.cols ++ nsCols dss,
      df.rows.map (fun r => r ++ (nsCols dss).map (fun c => (c, Value.null)))⟩ : Table)
      irCol (Value.bool false)).rows.length).foldlM (processRow resolver reproject dss)
      (setCol ⟨df.cols ++ nsCols dss,
        df.rows.map (fun r => r ++ (nsCols dss).map (fun c => (c, Value.null)))⟩
        irCol (Value.bool false)) = _
  have hirfresh : irCol ∉ df.cols ++ nsCols dss := by
    intro hmem
    rcases List.mem_append.mp hmem with h1 | h1
    · exact hirdf h1
    · exact hirns h1
  rw [setCol_not_mem _ irCol (Value.bool false) hirfresh]
  have hrows : (df.rows.map (fun r => r ++ (nsCols dss).map (fun c => (c, Value.null)))).map
      (fun r => r ++ [(irCol, Value.bool false)]) = df.rows.map (padRow dss) := by
    rw [List.map_map]
    rfl
  show (List.range ((df.rows.map (fun r => r ++ (nsCols dss).map (fun c => (c, Value.null)))).map
      (fun r => r ++ [(irCol, Value.bool false)])).length).foldlM
      (processRow resolver reproject dss)
      ⟨(df.cols ++ nsCols dss) ++ [irCol],
       (df.rows.map (fun r => r ++ (nsCols dss).map (fun c => (c, Value.null)))).map
         (fun r => r ++ [(irCol, Value.bool false)])⟩ = _
  rw [hrows]
  have hlen : (df.rows.map (padRow dss)).length = df.rows.length := List.length_map _ _
  rw [hlen, List.range_eq_range' df.rows.length]
  have hloop := rows_loop resolver reproject dss ((df.cols ++ nsCols dss) ++ [irCol]) hm
    (fun c hc => List.mem_append.mpr (Or.inl (List.mem_append.mpr (Or.inr hc))))
    (List.mem_append.mpr (Or.inr (List.mem_singleton_self irCol)))
    df.rows [] haddr
  rw [show (0 : Nat) = ([] : List Row).length from rfl,
    show df.rows.length = df.rows.length from rfl]
  rw [show (⟨(df.cols ++ nsCols dss) ++ [irCol], df.rows.map (padRow dss)⟩ : Table)
    = ⟨(df.cols ++ nsCols dss) ++ [irCol], [] ++ df.rows.map (padRow dss)⟩ from rfl]
  rw [hloop]
  rfl

theorem dictGet?_padRow_orig (dss : List Dataset) (r : Row) (c : Seg)
    (h : c ∈ rowKeys r) : dictGet? (padRow dss r) c = dictGet? r c := by
  obtain ⟨v, hv⟩ := dictGet?_exists_of_mem r c h
  rw [padRow, dictGet?_append_left _ _ c v (dictGet?_append_left _ _ c v hv), hv]

theorem dictGet?_padRow_ns (dss : List Dataset) (r : Row) (c : Seg)
    (hc : c ∈ nsCols dss) (hr : c ∉ rowKeys r) :
    dictGet? (padRow dss r) c = some Value.null := by
  rw [padRow]
  have hmid : dictGet? (r ++ (nsCols dss).map (fun c => (c, Value.null))) c
      = some Value.null := by
    rw [dictGet?_append_right r _ c hr]
    exact dictGet?_map_pair (nsCols dss) Value.null c hc
  exact dictGet?_append_left _ _ c Value.null hmid

theorem dictGet?_padRow_ir (dss : List Dataset) (r : Row)
    (hr : irCol ∉ rowKeys r) (hns : irCol ∉ nsCols dss) :
    dictGet? (padRow dss r) irCol = some (Value.bool false) := by
  rw [padRow, dictGet?_append_right _ _ irCol (by
    rw [rowKeys_append, rowKeys_map_pair]
    intro hmem
    rcases List.mem_append.mp hmem with h1 | h1
    · exact hr h1
    · exact hns h1)]
  rfl

theorem rowKeys_padRow (dss : List Dataset) (r : Row) :
    rowKeys (padRow dss r) = rowKeys r ++ nsCols dss ++ [irCol] := by
  rw [padRow, rowKeys_append, rowKeys_append, rowKeys_map_pair]
  rfl

theorem enrichRow_none (r : Row) : enrichRow none r = r := rfl

theorem enrichRow_flag_true (l : List (Seg × Value)) (pr : Row)
    (hne : l ≠ []) (hir : irCol ∉ rowKeys l) :
    dictGet? (enrichRow (some l) pr) irCol = some (Value.bool true) := by
  have hie : l.isEmpty = false := by
    cases l with
    | nil => exact absurd rfl hne
    | cons x xs => rfl
  rw [enrichRow, hie]
  show dictGet? (l.foldl (fun r2 kv => dictInsert r2 kv.1 kv.2)
    (dictInsert pr irCol (Value.bool true))) irCol = some (Value.bool true)
  rw [dictGet?_foldl_dictInsert_preserve l _ irCol hir]
  exact dictGet?_dictInsert_self pr irCol (Value.bool true)

theorem enrichRow_some_preserve (l : List (Seg × Value)) (pr : Row) (q : Seg)
    (hq : q ∉ rowKeys l) (hqir : q ≠ irCol) :
    dictGet? (enrichRow (some l) pr) q = dictGet? pr q := by
  rw [enrichRow]
  by_cases hie : l.isEmpty
  · rw [if_pos hie]
  · rw [if_neg hie]
    show dictGet? (l.foldl (fun r2 kv => dictInsert r2 kv.1 kv.2)
      (dictInsert pr irCol (Value.bool true))) q = dictGet? pr q
    rw [dictGet?_foldl_dictInsert_preserve l _ q hq]
    exact dictGet?_dictInsert_ne pr irCol q (Value.bool true) hqir

theorem enrichRow_value (l : List (Seg × Value)) (pr : Row) (k : Seg) (v : Value)
    (hnd : (rowKeys l).Nodup) (hmem : (k, v) ∈ l) (hne : l ≠ []) :
    dictGet? (enrichRow (some l) pr) k = some v := by
  have hie : l.isEmpty = false := by
    cases l with
    | nil => exact absurd rfl hne
    | cons x xs => rfl
  rw [enrichRow, hie]
  show dictGet? (l.foldl (fun r2 kv => dictInsert r2 kv.1 kv.2)
    (dictInsert pr irCol (Value.bool true))) k = some v
  exact dictGet?_foldl_dictInsert_of_nodup l _ k v hnd hmem

theorem rowKeys_enrichRow (rd : Option (List (Seg × Value))) (pr : Row)
    (hsub : ∀ l, rd = some l → ∀ k ∈ rowKeys l, k ∈ rowKeys pr)
    (hir : irCol ∈ rowKeys pr) :
    rowKeys (enrichRow rd pr) = rowKeys pr := by
  cases rd with
  | none => rfl
  | some l =>
    rw [enrichRow]
    by_cases hie : l.isEmpty
    · rw [if_pos hie]
    · rw [if_neg hie]
      show rowKeys (l.foldl (fun r2 kv => dictInsert r2 kv.1 kv.2)
        (dictInsert pr irCol (Value.bool true))) = rowKeys pr
      rw [rowKeys_foldl_dictInsert_of_mem l _ (fun kv hm => by
        rw [rowKeys_dictInsert_of_mem pr irCol (Value.bool true) hir]
        exact hsub l rfl kv.1 (List.mem_map_of_mem Prod.fst hm))]
      exact rowKeys_dictInsert_of_mem pr irCol (Value.bool true) hir

theorem list_get?_map {α β : Type} (f : α → β) (l : List α) (i : Nat) :
    (l.map f).get? i = (l.get? i).map f := by
  rw [List.get?_eq_getElem?, List.get?_eq_getElem?, List.getElem?_map]

/-- Claim C9, amended, part of the exact driver characterization: provided the
namespaced region column names are pairwise distinct and collide neither with
the input table's columns nor with `in_region` (and every dataset path carries
the marker, every row an `address` cell), the output preserves the input record
order one-to-one, every output row has the identical column set — original
columns, then one region column per (namespaced) attribute in
dataset-then-attribute order, then the flag — original cells are preserved
row-by-row, and unmatched rows carry nulls in all region columns. Without the
freshness proviso the claim fails (see the counterexample). -/
theorem c9_schema_and_order_amended (resolver : Value → Option Point)
    (reproject : Geom → Geom) (df : Table) (dss : List Dataset)
    (hm : ∀ ds ∈ dss, derivePfx ds.path ≠ none)
    (hfresh : ∀ c ∈ nsCols dss, c ∉ df.cols)
    (hnd : (nsCols dss).Nodup)
    (hirdf : irCol ∉ df.cols) (hirns : irCol ∉ nsCols dss)
    (halign : ∀ r ∈ df.rows, rowKeys r = df.cols)
    (haddrc : addrCol ∈ df.cols) :
    ∃ out, processAddresses resolver reproject df dss = .ok out
      ∧ out.cols = df.cols ++ nsCols dss ++ [irCol]
      ∧ out.rows.length = df.rows.length
      ∧ (∀ r2 ∈ out.rows, rowKeys r2 = out.cols)
      ∧ (∀ i r2, df.rows.get? i = some r2 → ∀ c ∈ df.cols,
          getCell out i c = dictGet? r2 c)
      ∧ (∀ i, getCell out i irCol = some (Value.bool false) →
          ∀ c ∈ nsCols dss, getCell out i c = some Value.null) := by
  have haddr : ∀ r ∈ df.rows, addrCol ∈ rowKeys r := fun r hr => (halign r hr) ▸ haddrc
  refine ⟨_, processAddresses_exact resolver reproject df dss hm hfresh hnd hirdf hirns haddr,
    rfl, List.length_map _ _, ?_, ?_, ?_⟩
  · intro r2 hr2
    obtain ⟨r, hr, rfl⟩ := List.mem_map.mp hr2
    have hk : rowKeys r = df.cols := halign r hr
    obtain ⟨a, ha⟩ := dictGet?_exists_of_mem r addrCol (hk ▸ haddrc)
    obtain ⟨_, hprops⟩ := check_ok_and_keys resolver reproject a dss hm
    rw [finalRow, ha]
    show rowKeys (enrichRow (rdOf resolver reproject dss a) (padRow dss r)) = _
    rw [rowKeys_enrichRow _ _ (fun l hl k hkk => by
        rw [rowKeys_padRow]
        exact List.mem_append.mpr (Or.inl (List.mem_append.mpr
          (Or.inr ((hprops l hl).2.1 k hkk))))
      ) (by
        rw [rowKeys_padRow]
        exact List.mem_append.mpr (Or.inr (List.mem_singleton_self irCol))),
      rowKeys_padRow, hk]
  · intro i r2 hrow c hc
    have hk : rowKeys r2 = df.cols := halign r2 (List.get?_mem hrow)
    obtain ⟨a, ha⟩ := dictGet?_exists_of_mem r2 addrCol (hk ▸ haddrc)
    obtain ⟨_, hprops⟩ := check_ok_and_keys resolver reproject a dss hm
    rw [getCell]
    show ((df.rows.map (finalRow resolver reproject dss)).get? i).bind
      (fun r => dictGet? r c) = _
    rw [list_get?_map, hrow]
    show dictGet? (finalRow resolver reproject dss r2) c = dictGet? r2 c
    have hfr : finalRow resolver reproject dss r2
        = enrichRow (rdOf resolver reproject dss a) (padRow dss r2) := by
      rw [finalRow, ha]
    have hpres : dictGet? (padRow dss r2) c = dictGet? r2 c :=
      dictGet?_padRow_orig dss r2 c (hk ▸ hc)
    cases hrd : rdOf resolver reproject dss a with
    | none => rw [hfr, hrd, enrichRow_none, hpres]
    | some l =>
      rw [hfr, hrd, enrichRow_some_preserve l _ c
        (fun hmem => hfresh c ((hprops l hrd).2.1 c hmem) hc)
        (fun he => hirdf (he ▸ hc)), hpres]
  · intro i hflag c hc
    cases hrow : df.rows.get? i with
    | none =>
      exfalso
      rw [getCell] at hflag
      rw [show (Table.mk (df.cols ++ nsCols dss ++ [irCol])
        (df.rows.map (finalRow resolver reproject dss))).rows.get? i = none from by
          rw [list_get?_map, hrow]; rfl] at hflag
      cases hflag
    | some r2 =>
      have hk : rowKeys r2 = df.cols := halign r2 (List.get?_mem hrow)
      obtain ⟨a, ha⟩ := dictGet?_exists_of_mem r2 addrCol (hk ▸ haddrc)
      obtain ⟨_, hprops⟩ := check_ok_and_keys resolver reproject a dss hm
      have hgc : ∀ q, getCell ⟨df.cols ++ nsCols dss ++ [irCol],
          df.rows.map (finalRow resolver reproject dss)⟩ i q
          = dictGet? (finalRow resolver reproject dss r2) q := by
        intro q
        rw [getCell]
        show ((df.rows.map (finalRow resolver reproject dss)).get? i).bind
          (fun r => dictGet? r q) = _
        rw [list_get?_map, hrow]
        rfl
      have hfr : finalRow resolver reproject dss r2
          = enrichRow (rdOf resolver reproject dss a) (padRow dss r2) := by
        rw [finalRow, ha]
      rw [hgc] at hflag
      rw [hgc]
      rw [hfr] at hflag ⊢
      cases hrd : rdOf resolver reproject dss a with
      | none =>
        rw [enrichRow_none]
        exact dictGet?_padRow_ns dss r2 c hc (fun hmem => hfresh c hc (hk ▸ hmem))
      | some l =>
        exfalso
        rw [hrd] at hflag
        obtain ⟨hne, hsub, _⟩ := hprops l hrd
        rw [enrichRow_flag_true l _ hne (fun hmem => hirns (hsub irCol hmem))] at hflag
        exact Bool.noConfusion (Value.bool.inj (Option.some.inj hflag))

/-- Claim C7, counterexample: the equivalence between the matched flag and a
non-empty attribute mapping fails when a namespaced region column is itself
named `in_region`: the dataset at `shape_files/in.shp` (prefix `in`) with
attribute column `region` produces the namespaced column `in_region`; a
matching record first gets the flag set to `True` and then has it overwritten
by the attribute value `oops`, so its mapping is non-empty but its `in_region`
cell is not `True`. -/
theorem c7_flag_clobbered :
    checkAddressInRegion (fun _ => some (0, 0)) id (Value.str "A".toList) [c7ds]
      = .ok (some [(irCol, Value.str "oops".toList)])
    ∧ processAddresses (fun _ => some (0, 0)) id c7df [c7ds] = .ok c7out
    ∧ getCell c7out 0 irCol = some (Value.str "oops".toList)
    ∧ (some (Value.str "oops".toList) : Option Value) ≠ some (Value.bool true) :=
  ⟨rfl, rfl, rfl, by decide⟩

/-- Claim C7, amended: provided no namespaced region column collides with the
input columns or with `in_region` itself (and dataset paths carry the marker,
rows are aligned with an `address` column), every output record's `in_region`
flag is `True` if and only if its region-attribute mapping (the check result
for its address) is non-empty — for every record, whether or not resolution
succeeded. -/
theorem c7_matched_iff_nonempty_amended (resolver : Value → Option Point)
    (reproject : Geom → Geom) (df : Table) (dss : List Dataset)
    (hm : ∀ ds ∈ dss, derivePfx ds.path ≠ none)
    (hfresh : ∀ c ∈ nsCols dss, c ∉ df.cols)
    (hnd : (nsCols dss).Nodup)
    (hirdf : irCol ∉ df.cols) (hirns : irCol ∉ nsCols dss)
    (halign : ∀ r ∈ df.rows, rowKeys r = df.cols)
    (haddrc : addrCol ∈ df.cols) :
    ∃ out, processAddresses resolver reproject df dss = .ok out
      ∧ ∀ i r2 a, df.rows.get? i = some r2 → dictGet? r2 addrCol = some a →
        (getCell out i irCol = some (Value.bool true)
          ↔ (rdOf resolver reproject dss a).getD [] ≠ []) := by
  have haddr : ∀ r ∈ df.rows, addrCol ∈ rowKeys r := fun r hr => (halign r hr) ▸ haddrc
  refine ⟨_, processAddresses_exact resolver reproject df dss hm hfresh hnd hirdf hirns haddr,
    ?_⟩
  intro i r2 a hrow ha
  have hk : rowKeys r2 = df.cols := halign r2 (List.get?_mem hrow)
  obtain ⟨_, hprops⟩ := check_ok_and_keys resolver reproject a dss hm
  have hgc : getCell ⟨df.cols ++ nsCols dss ++ [irCol],
      df.rows.map (finalRow resolver reproject dss)⟩ i irCol
      = dictGet? (finalRow resolver reproject dss r2) irCol := by
    rw [getCell]
    show ((df.rows.map (finalRow resolver reproject dss)).get? i).bind
      (fun r => dictGet? r irCol) = _
    rw [list_get?_map, hrow]
    rfl
  have hfr : finalRow resolver reproject dss r2
      = enrichRow (rdOf resolver reproject dss a) (padRow dss r2) := by
    rw [finalRow, ha]
  rw [hgc, hfr]
  cases hrd : rdOf resolver reproject dss a with
  | none =>
    rw [enrichRow_none, dictGet?_padRow_ir dss r2 (fun hmem => hirdf (hk ▸ hmem)) hirns]
    constructor
    · intro hcontra
      exact absurd (Value.bool.inj (Option.some.inj hcontra)) (by decide)
    · intro hcontra
      exact absurd rfl hcontra
  | some l =>
    obtain ⟨hne, hsub, _⟩ := hprops l hrd
    rw [enrichRow_flag_true l _ hne (fun hmem => hirns (hsub irCol hmem))]
    constructor
    · intro _
      exact hne
    · intro _
      rfl

/-- Witness for the amended C7 theorem on a two-row table whose first address
resolves into the region and whose second does not resolve. -/
theorem c7_matched_iff_nonempty_amended_witness :
    ∃ out, processAddresses
        (fun a => if a = Value.str "A".toList then some (0, 0) else none) id c7wdf [c7wds]
        = .ok out
      ∧ ∀ i r2 a, c7wdf.rows.get? i = some r2 → dictGet? r2 addrCol = some a →
        (getCell out i irCol = some (Value.bool true)
          ↔ (rdOf (fun a => if a = Value.str "A".toList then some (0, 0) else none)
              id [c7wds] a).getD [] ≠ []) :=
  c7_matched_iff_nonempty_amended _ id c7wdf [c7wds]
    (fun ds hds => by
      rcases List.mem_singleton.mp hds with rfl
      decide)
    (fun c hc => by
      rw [show nsCols [c7wds] = ["z_n".toList] from rfl] at hc
      rcases List.mem_singleton.mp hc with rfl
      decide)
    (by rw [show nsCols [c7wds] = ["z_n".toList] from rfl]; decide)
    (by decide)
    (by rw [show nsCols [c7wds] = ["z_n".toList] from rfl]; decide)
    (fun r hr => by
      rcases List.mem_cons.mp hr with rfl | hr2
      · rfl
      · rcases List.mem_singleton.mp hr2 with rfl
        rfl)
    (by decide)

/-- When the resolver yields no point the check result is None. -/
theorem rdOf_none_of_resolver_none (resolver : Value → Option Point)
    (reproject : Geom → Geom) (dss : List Dataset) (a : Value)
    (hfail : resolver a = none) : rdOf resolver reproject dss a = none := by
  rw [rdOf]
  rw [show checkAddressInRegion resolver reproject a dss = .ok none from by
    unfold checkAddressInRegion
    rw [hfail]]

/-- Claim C8: when the external resolver fails for a record (no point, or a
caught transient error — `get_coordinates` returns None for both), the batch
driver marks that record unmatched and still completes the whole batch with
one output row per input row; no exception is raised (the run returns `.ok`).
Stated under the driver's schema conditions (marker paths, fresh distinct
region columns, aligned rows with an address column). -/
theorem c8_resolver_failure_recovered (resolver : Value → Option Point)
    (reproject : Geom → Geom) (df : Table) (dss : List Dataset) (i : Nat) (r2 : Row)
    (a : Value)
    (hm : ∀ ds ∈ dss, derivePfx ds.path ≠ none)
    (hfresh : ∀ c ∈ nsCols dss, c ∉ df.cols)
    (hnd : (nsCols dss).Nodup)
    (hirdf : irCol ∉ df.cols) (hirns : irCol ∉ nsCols dss)
    (halign : ∀ r ∈ df.rows, rowKeys r = df.cols)
    (haddrc : addrCol ∈ df.cols)
    (hrow : df.rows.get? i = some r2) (ha : dictGet? r2 addrCol = some a)
    (hfail : resolver a = none) :
    ∃ out, processAddresses resolver reproject df dss = .ok out
      ∧ out.rows.length = df.rows.length
      ∧ getCell out i irCol = some (Value.bool false) := by
  have haddr : ∀ r ∈ df.rows, addrCol ∈ rowKeys r := fun r hr => (halign r hr) ▸ haddrc
  refine ⟨_, processAddresses_exact resolver reproject df dss hm hfresh hnd hirdf hirns haddr,
    List.length_map _ _, ?_⟩
  have hk : rowKeys r2 = df.cols := halign r2 (List.get?_mem hrow)
  rw [getCell]
  show ((df.rows.map (finalRow resolver reproject dss)).get? i).bind
    (fun r => dictGet? r irCol) = _
  rw [list_get?_map, hrow]
  show dictGet? (finalRow resolver reproject dss r2) irCol = _
  rw [show finalRow resolver reproject dss r2
      = enrichRow (rdOf resolver reproject dss a) (padRow dss r2) from by rw [finalRow, ha],
    rdOf_none_of_resolver_none resolver reproject dss a hfail, enrichRow_none]
  exact dictGet?_padRow_ir dss r2 (fun hmem => hirdf (hk ▸ hmem)) hirns

/-- Witness for C8: the resolver fails for address `C` (row 0); the batch still
returns two rows and row 0 is unmatched. -/
theorem c8_resolver_failure_recovered_witness :
    ∃ out, processAddresses
        (fun a => if a = Value.str "C".toList then none else some (0, 0)) id c8df [c8ds]
        = .ok out
      ∧ out.rows.length = c8df.rows.length
      ∧ getCell out 0 irCol = some (Value.bool false) :=
  c8_resolver_failure_recovered _ id c8df [c8ds] 0
    [(addrCol, Value.str "C".toList)] (Value.str "C".toList)
    (fun ds hds => by
      rcases List.mem_singleton.mp hds with rfl
      decide)
    (fun c hc => by
      rw [show nsCols [c8ds] = ["z_n".toList] from rfl] at hc
      rcases List.mem_singleton.mp hc with rfl
      decide)
    (by rw [show nsCols [c8ds] = ["z_n".toList] from rfl]; decide)
    (by decide)
    (by rw [show nsCols [c8ds] = ["z_n".toList] from rfl]; decide)
    (fun r hr => by
      rcases List.mem_cons.mp hr with rfl | hr2
      · rfl
      · rcases List.mem_singleton.mp hr2 with rfl
        rfl)
    (by decide) rfl rfl rfl

/-- Claim C2, counterexample: with zero datasets the batch run does NOT fail
fatally: it completes normally, the input record is processed, and an output
row is produced (marked unmatched). The claim's fatal failure before any
record does not happen anywhere in the code. -/
theorem c2_zero_datasets_no_failure :
    processAddresses (fun _ => none) id c2df [] = .ok c2out
    ∧ c2out.rows.length = 1 :=
  ⟨rfl, rfl⟩

/-- Claim C2, amended: when zero region datasets are loaded the batch run does
not fail; it processes every input record (one output row per input row, with
the `in_region` column appended) and marks every record unmatched, since the
empty dataset loop yields an empty dict, which the check collapses to None. -/
theorem c2_zero_datasets_processes_all (resolver : Value → Option Point)
    (reproject : Geom → Geom) (df : Table)
    (hirdf : irCol ∉ df.cols)
    (halign : ∀ r ∈ df.rows, rowKeys r = df.cols)
    (haddrc : addrCol ∈ df.cols) :
    ∃ out, processAddresses resolver reproject df [] = .ok out
      ∧ out.rows.length = df.rows.length
      ∧ ∀ i r2, df.rows.get? i = some r2 →
          getCell out i irCol = some (Value.bool false) := by
  have haddr : ∀ r ∈ df.rows, addrCol ∈ rowKeys r := fun r hr => (halign r hr) ▸ haddrc
  refine ⟨_, processAddresses_exact resolver reproject df []
    (fun ds hds => absurd hds (List.not_mem_nil ds))
    (fun c hc => absurd hc (List.not_mem_nil c))
    List.nodup_nil hirdf (List.not_mem_nil irCol) haddr,
    List.length_map _ _, ?_⟩
  intro i r2 hrow
  have hk : rowKeys r2 = df.cols := halign r2 (List.get?_mem hrow)
  obtain ⟨a, ha⟩ := dictGet?_exists_of_mem r2 addrCol (hk ▸ haddrc)
  have hrd : rdOf resolver reproject [] a = none := by
    cases hres : resolver a with
    | none => exact rdOf_none_of_resolver_none resolver reproject [] a hres
    | some p =>
      rw [rdOf]
      rw [show checkAddressInRegion resolver reproject a [] = .ok none from by
        rw [checkAddressInRegion_of_resolved resolver reproject a p [] hres]
        rfl]
  rw [getCell]
  show ((df.rows.map (finalRow resolver reproject [])).get? i).bind
    (fun r => dictGet? r irCol) = _
  rw [list_get?_map, hrow]
  show dictGet? (finalRow resolver reproject [] r2) irCol = _
  rw [show finalRow resolver reproject [] r2
      = enrichRow (rdOf resolver reproject [] a) (padRow [] r2) from by rw [finalRow, ha],
    hrd, enrichRow_none]
  exact dictGet?_padRow_ir [] r2 (fun hmem => hirdf (hk ▸ hmem)) (List.not_mem_nil irCol)

/-- Witness for the amended C2 theorem at a one-row table. -/
theorem c2_zero_datasets_processes_all_witness :
    ∃ out, processAddresses (fun _ => some (0, 0)) id c2df [] = .ok out
      ∧ out.rows.length = c2df.rows.length
      ∧ ∀ i r2, c2df.rows.get? i = some r2 →
          getCell out i irCol = some (Value.bool false) :=
  c2_zero_datasets_processes_all _ id c2df (by decide)
    (fun r hr => by
      rcases List.mem_singleton.mp hr with rfl
      rfl)
    (by decide)

theorem idxOf?_eq_none_of_not_mem (x : Seg) (l : List Seg) (h : x ∉ l) :
    idxOf? x l = none := by
  induction l with
  | nil => rfl
  | cons y ys ih =>
    have hy : y ≠ x := fun he => h (he ▸ List.mem_cons_self _ _)
    rw [idxOf?, if_neg hy, ih (fun hm => h (List.mem_cons_of_mem _ hm))]
    rfl

theorem derivePfx_none_of_not_mem (parts : List Seg) (h : marker ∉ parts) :
    derivePfx parts = none := by
  rw [derivePfx, idxOf?_eq_none_of_not_mem marker parts h]

/-- Claim C10: the prefix derivation requires the dataset path to contain the
root marker segment `shape_files`. For any dataset whose path lacks the marker,
the derivation produces no prefix (a `ValueError` from `tuple.index`), the
matching operation raises as soon as a point is resolved, and the batch driver
raises already in column setup — before any record is processed. So every
dataset path reaching matching or column setup must contain the marker. -/
theorem c10_marker_required (resolver : Value → Option Point) (reproject : Geom → Geom)
    (a : Value) (p : Point) (df : Table) (dss : List Dataset) (ds : Dataset)
    (hds : ds ∈ dss) (hno : marker ∉ ds.path) :
    derivePfx ds.path = none
    ∧ (resolver a = some p →
        checkAddressInRegion resolver reproject a dss = .error .valueError)
    ∧ processAddresses resolver reproject df dss = .error .valueError := by
  have hnone : derivePfx ds.path = none := derivePfx_none_of_not_mem ds.path hno
  refine ⟨hnone, ?_, ?_⟩
  · intro hres
    rw [checkAddressInRegion_of_resolved resolver reproject a p dss hres]
    rw [show matchAll reproject p dss = .error .valueError from
      foldlM_matchStep_error reproject p dss [] ⟨ds, hds, hnone⟩]
    rfl
  · rw [processAddresses]
    show (setupColumns df dss) >>= _ = _
    rw [setupColumns, foldlM_setupStep_error dss (df, []) ⟨ds, hds, hnone⟩]
    rfl

/-- Witness for C10 at a dataset whose path `data/x.shp` lacks the marker. -/
theorem c10_marker_required_witness :
    derivePfx c10ds.path = none
    ∧ ((fun _ => some ((0 : Int), (0 : Int))) (Value.str "A".toList) = some (0, 0) →
        checkAddressInRegion (fun _ => some (0, 0)) id (Value.str "A".toList) [c10ds]
          = .error .valueError)
    ∧ processAddresses (fun _ => some (0, 0)) id c10df [c10ds] = .error .valueError :=
  c10_marker_required (fun _ => some (0, 0)) id (Value.str "A".toList) (0, 0) c10df
    [c10ds] c10ds (List.mem_singleton_self c10ds) (by decide)

/-- Claim C9, counterexample: for an input table whose original column `a_b`
coincides with the namespaced region column of the dataset `shape_files/a.shp`
(prefix `a`, attribute `b`), the output column set is NOT the original columns
followed by one column per region attribute followed by the flag (that list
would repeat `a_b`), and the original cell value `X` is destroyed: column
setup overwrites the whole existing column with nulls. -/
theorem c9_input_column_collision :
    processAddresses (fun _ => none) id c9df [c9ds] = .ok c9out
    ∧ c9out.cols ≠ c9df.cols ++ nsCols [c9ds] ++ [irCol]
    ∧ getCell c9out 0 "a_b".toList = some Value.null
    ∧ dictGet? [(addrCol, Value.str "A".toList), ("a_b".toList, Value.str "X".toList)]
        "a_b".toList = some (Value.str "X".toList) :=
  ⟨rfl, by decide, rfl, rfl⟩

/-- Witness for the amended C9 theorem on a two-row table with one fresh
region column, one matching and one unmatched row. -/
theorem c9_schema_and_order_amended_witness :
    ∃ out, processAddresses
        (fun a => if a = Value.str "A".toList then some (0, 0) else some (5, 5)) id
        c9wdf [c9wds] = .ok out
      ∧ out.cols = c9wdf.cols ++ nsCols [c9wds] ++ [irCol]
      ∧ out.rows.length = c9wdf.rows.length
      ∧ (∀ r2 ∈ out.rows, rowKeys r2 = out.cols)
      ∧ (∀ i r2, c9wdf.rows.get? i = some r2 → ∀ c ∈ c9wdf.cols,
          getCell out i c = dictGet? r2 c)
      ∧ (∀ i, getCell out i irCol = some (Value.bool false) →
          ∀ c ∈ nsCols [c9wds], getCell out i c = some Value.null) :=
  c9_schema_and_order_amended _ id c9wdf [c9wds]
    (fun ds hds => by
      rcases List.mem_singleton.mp hds with rfl
      decide)
    (fun c hc => by
      rw [show nsCols [c9wds] = ["z_n".toList] from rfl] at hc
      rcases List.mem_singleton.mp hc with rfl
      decide)
    (by rw [show nsCols [c9wds] = ["z_n".toList] from rfl]; decide)
    (by decide)
    (by rw [show nsCols [c9wds] = ["z_n".toList] from rfl]; decide)
    (fun r hr => by
      rcases List.mem_cons.mp hr with rfl | hr2
      · rfl
      · rcases List.mem_singleton.mp hr2 with rfl
        rfl)
    (by decide)
